import Mathlib

/-!
Verification of the `fridge` remote code execution service.

The development shallowly embeds the two sides of the wire protocol:

* the server side (`server.py`, `ThreadingCodeExecutionHandler.handle`):
  reading the request in chunks under a size bound, UTF-8 decoding, script
  execution in a scratch directory, response encoding, and the exception
  paths around `sendall`;
* the client side (`code_exec_client.py`, `CodeExecutionClient._parse_response`):
  the marker-based parser producing an `ExecutionResult` or raising
  `ServerResponseError`.

Python strings are embedded as `List Char` (a Python `str` is a sequence of
code points); Python byte strings are embedded as `List Nat` with every
element below 256 where it matters.  Each Python string primitive used by
the source (`split` with and without maxsplit, `splitlines`, `replace`,
`strip`, `int(...)`, `str(int)`, `startswith`) gets its own faithful model
below.
-/

/-- The characters of a string literal, the embedding of a Python `str`. -/
def chars (s : String) : List Char := s.data

/-- `MAX_SCRIPT_SIZE = 1024 * 60` from `server.py`. -/
def MAX_SCRIPT_SIZE : Nat := 1024 * 60

/-- `EXECUTION_TIMEOUT = 30` from `server.py` (seconds).  The wall-clock
bound itself is abstracted by `ExecOutcome.timedOut`. -/
def EXECUTION_TIMEOUT : Nat := 30

/-- Boolean prefix test on character lists; the model of Python
`str.startswith` and the building block of the scanning primitives. -/
def isPrefixB : List Char → List Char → Bool
  | [], _ => true
  | _ :: _, [] => false
  | a :: as, b :: bs => if a = b then isPrefixB as bs else false

/-- Model of Python `s.split(sep, 1)` destructured into two names:
`some (a, b)` when `sep` occurs, splitting at the leftmost occurrence,
and `none` when the destructuring would raise `ValueError`.
(`sep` is nonempty at every call site, as in the source.) -/
def splitOnce (sep : List Char) : List Char → Option (List Char × List Char)
  | [] => none
  | c :: rest =>
    if isPrefixB sep (c :: rest) then some ([], (c :: rest).drop sep.length)
    else
      match splitOnce sep rest with
      | some (a, b) => some (c :: a, b)
      | none => none

/-- Model of Python `a, b = s.split(sep)` (no maxsplit, nonempty `sep`):
succeeds exactly when `sep` occurs exactly once, i.e. the leftmost
occurrence splits `s` and the right part holds no further occurrence. -/
def splitTwo (sep s : List Char) : Option (List Char × List Char) :=
  match splitOnce sep s with
  | none => none
  | some (a, b) => if (splitOnce sep b).isSome then none else some (a, b)

/-- The model of Python's `in` operator on strings: substring occurrence. -/
def pyContains (sub s : List Char) : Bool := (splitOnce sub s).isSome

/-- Python line-boundary characters recognised by `str.splitlines`
(besides the `"\r\n"` pair handled separately). -/
def isLineBreak (c : Char) : Bool :=
  c = '\n' || c = '\r' || c = '\x0b' || c = '\x0c' ||
  c = '\x1c' || c = '\x1d' || c = '\x1e' || c = '\x85' ||
  c = '\u2028' || c = '\u2029'

/-- Worker for `pySplitlines`; `acc` holds the current line reversed. -/
def splitlinesAux : List Char → List Char → List (List Char)
  | [], acc => if acc = [] then [] else [acc.reverse]
  | c :: rest, acc =>
    if c = '\r' then
      if rest.head? = some '\n' then acc.reverse :: splitlinesAux rest.tail []
      else acc.reverse :: splitlinesAux rest []
    else if isLineBreak c then acc.reverse :: splitlinesAux rest []
    else splitlinesAux rest (c :: acc)
termination_by l _ => l.length
decreasing_by
  all_goals simp only [List.length_cons, List.length_tail]
  all_goals omega

/-- Model of Python `str.splitlines()` (no trailing empty line). -/
def pySplitlines (s : List Char) : List (List Char) := splitlinesAux s []

/-- Model of Python `s.replace(old, new)` (all non-overlapping occurrences,
left to right; `old` is nonempty at every call site). -/
def pyReplace (old new : List Char) (s : List Char) : List Char :=
  match s with
  | [] => []
  | c :: rest =>
    if h : old ≠ [] ∧ isPrefixB old (c :: rest) = true then
      new ++ pyReplace old new ((c :: rest).drop old.length)
    else
      c :: pyReplace old new rest
termination_by s.length
decreasing_by
  · have h1 : 1 ≤ old.length := by
      cases old with
      | nil => exact absurd rfl h.1
      | cons x xs => simp
    simp only [List.length_drop, List.length_cons]
    omega
  · simp only [List.length_cons]; omega

/-- Model of Python `s.replace(old, new, 1)`: the leftmost occurrence only. -/
def pyReplaceOnce (old new : List Char) : List Char → List Char
  | [] => []
  | c :: rest =>
    if old ≠ [] ∧ isPrefixB old (c :: rest) = true then
      new ++ (c :: rest).drop old.length
    else
      c :: pyReplaceOnce old new rest

/-- The whitespace characters stripped by Python `str.strip()`
(the ASCII ones; the exotic Unicode spaces never arise here). -/
def isPySpace (c : Char) : Bool :=
  c = ' ' || c = '\t' || c = '\n' || c = '\r' || c = '\x0b' || c = '\x0c'

/-- Model of Python `str.strip()`. -/
def pyStrip (l : List Char) : List Char :=
  ((l.dropWhile isPySpace).reverse.dropWhile isPySpace).reverse

/-- The value of an ASCII decimal digit character, else `none`. -/
def digitVal (c : Char) : Option Nat :=
  if 48 ≤ c.toNat ∧ c.toNat ≤ 57 then some (c.toNat - 48) else none

/-- Digit run of Python `int(...)` after the first digit: decimal digits
with single underscores allowed between digits. -/
def parseDigitsCore : Nat → List Char → Option Nat
  | acc, [] => some acc
  | acc, c :: rest =>
    if c = '_' then
      match rest with
      | [] => none
      | c2 :: rest2 =>
        match digitVal c2 with
        | some d => parseDigitsCore (acc * 10 + d) rest2
        | none => none
    else
      match digitVal c with
      | some d => parseDigitsCore (acc * 10 + d) rest
      | none => none

/-- Nonempty digit run, first character a digit (no leading underscore). -/
def parseUnsigned : List Char → Option Nat
  | [] => none
  | c :: rest =>
    match digitVal c with
    | some d => parseDigitsCore d rest
    | none => none

/-- Model of Python `int(s)` on an already-stripped string: optional sign
followed by a digit run; `none` models `ValueError`. -/
def pyParseInt (s : List Char) : Option Int :=
  match s with
  | [] => none
  | c :: rest =>
    if c = '+' then (parseUnsigned rest).map Int.ofNat
    else if c = '-' then (parseUnsigned rest).map (fun n => -(n : Int))
    else (parseUnsigned (c :: rest)).map Int.ofNat

/-- The ASCII digit character for `d < 10`. -/
def digitChar (d : Nat) : Char := Char.ofNat (48 + d)

/-- Fuel-indexed decimal printer (most significant digit first); the fuel
`n + 1` always suffices because `n / 10 < n` for `n ≥ 10`. -/
def natDigitsAux : Nat → Nat → List Char → List Char
  | 0, _, acc => acc
  | fuel + 1, n, acc =>
    if n < 10 then digitChar n :: acc
    else natDigitsAux fuel (n / 10) (digitChar (n % 10) :: acc)

/-- Decimal digits of a natural number, as printed by Python `str`. -/
def natDigits (n : Nat) : List Char := natDigitsAux (n + 1) n []

/-- Model of Python `str(i)` / f-string interpolation for an `int`. -/
def pyIntStr (i : Int) : List Char :=
  if i < 0 then '-' :: natDigits i.natAbs else natDigits i.toNat

/-- `ExecutionResult` from `code_exec_client.py`: return code plus exact
stdout/stderr captures. -/
structure ExecutionResult where
  return_code : Int
  stdout : List Char
  stderr : List Char
deriving DecidableEq

/-- The client-side exception raised by `_parse_response`
(`ServerResponseError`), carrying its message. -/
inductive ClientError where
  | serverResponseError (msg : List Char)
deriving DecidableEq

/-- The server's wire encoding of a successful execution
(`server.py` lines 65–70):
`"--- Execution Result ---\nReturn Code: {rc}\n\n--- STDOUT ---\n{out}\n--- STDERR ---\n{err}"`. -/
def encodeResponse (returncode : Int) (stdout stderr : List Char) : List Char :=
  chars "--- Execution Result ---\n" ++ chars "Return Code: " ++ pyIntStr returncode ++
  chars "\n\n" ++ chars "--- STDOUT ---\n" ++ stdout ++ chars "\n" ++
  chars "--- STDERR ---\n" ++ stderr

/-- `CodeExecutionClient._parse_response` (`code_exec_client.py` 207–229):
error-prefix check, then `split("\n\n", 1)`, `splitlines()[1]`,
`split("\n--- STDERR ---\n")` into exactly two parts,
`replace("Return Code: ", "").strip()`, `replace("--- STDOUT ---\n", "", 1)`
and `int(...)`; every caught `ValueError`/`IndexError` becomes the
"Failed to parse" error carrying the raw response. -/
def parseResponse (response : List Char) : Except ClientError ExecutionResult :=
  if isPrefixB (chars "ERROR:") response || isPrefixB (chars "SERVER ERROR:") response then
    .error (.serverResponseError (chars "Server returned an error: " ++ response))
  else
    match splitOnce (chars "\n\n") response with
    | none => .error (.serverResponseError (chars "Failed to parse server response: " ++ response))
    | some (header, rest) =>
      match (pySplitlines header).get? 1 with
      | none => .error (.serverResponseError (chars "Failed to parse server response: " ++ response))
      | some returnCodeLine =>
        match splitTwo (chars "\n--- STDERR ---\n") rest with
        | none => .error (.serverResponseError (chars "Failed to parse server response: " ++ response))
        | some (stdoutPart, stderrPart) =>
          match pyParseInt (pyStrip (pyReplace (chars "Return Code: ") [] returnCodeLine)) with
          | none => .error (.serverResponseError (chars "Failed to parse server response: " ++ response))
          | some rc =>
            .ok ⟨rc, pyReplaceOnce (chars "--- STDOUT ---\n") [] stdoutPart, stderrPart⟩

/-- Strict UTF-8 decoding of a byte sequence, the model of Python
`bytes.decode("utf-8")` (`server.py` line 39): rejects continuation bytes
in lead position, overlong encodings, surrogates and code points above
U+10FFFF; `none` models `UnicodeDecodeError`. -/
def utf8Decode : List Nat → Option (List Char)
  | [] => some []
  | b :: rest =>
    if b < 0x80 then
      (utf8Decode rest).map (fun cs => Char.ofNat b :: cs)
    else if b < 0xC2 then none
    else if b < 0xE0 then
      match rest with
      | b1 :: rest2 =>
        if 0x80 ≤ b1 ∧ b1 < 0xC0 then
          (utf8Decode rest2).map (fun cs => Char.ofNat ((b - 0xC0) * 64 + (b1 - 0x80)) :: cs)
        else none
      | [] => none
    else if b < 0xF0 then
      match rest with
      | b1 :: b2 :: rest3 =>
        if (if b = 0xE0 then 0xA0 ≤ b1 ∧ b1 < 0xC0
            else if b = 0xED then 0x80 ≤ b1 ∧ b1 < 0xA0
            else 0x80 ≤ b1 ∧ b1 < 0xC0) ∧ 0x80 ≤ b2 ∧ b2 < 0xC0 then
          (utf8Decode rest3).map
            (fun cs => Char.ofNat ((b - 0xE0) * 4096 + (b1 - 0x80) * 64 + (b2 - 0x80)) :: cs)
        else none
      | _ => none
    else if b < 0xF5 then
      match rest with
      | b1 :: b2 :: b3 :: rest4 =>
        if (if b = 0xF0 then 0x90 ≤ b1 ∧ b1 < 0xC0
            else if b = 0xF4 then 0x80 ≤ b1 ∧ b1 < 0x90
            else 0x80 ≤ b1 ∧ b1 < 0xC0) ∧
           (0x80 ≤ b2 ∧ b2 < 0xC0) ∧ (0x80 ≤ b3 ∧ b3 < 0xC0) then
          (utf8Decode rest4).map
            (fun cs => Char.ofNat ((b - 0xF0) * 262144 + (b1 - 0x80) * 4096 +
                                   (b2 - 0x80) * 64 + (b3 - 0x80)) :: cs)
        else none
      | _ => none
    else none

/-- What `subprocess.run(["uv", "run", "main.py"], ...)` did: finished
within the timeout with a return code and captured streams, exceeded the
timeout (`subprocess.TimeoutExpired`, which in Python carries the output
captured so far — recorded here so independence from it is provable), or
raised some other exception. -/
inductive ExecOutcome where
  | completed (returncode : Int) (stdout stderr : List Char)
  | timedOut (capturedStdout capturedStderr : List Char)
  | raised
deriving DecidableEq

/-- Observable actions of one `handle()` call, in order. -/
inductive Event where
  | recvChunk (c : List Nat)
  | recvEof
  | createdDir
  | wroteScript (code : List Char)
  | startedProcess
  | sendOkEv (payload : List Char)
  | sendFailEv (payload : List Char)
  | removedDir
deriving DecidableEq

/-- One connection's environment: the data chunks `recv` yields before
EOF (an empty chunk models EOF arriving early), what the subprocess does,
and whether the n-th `sendall` of this call succeeds. -/
structure World where
  chunks : List (List Nat)
  exec : ExecOutcome
  sendOk : Nat → Bool

/-- Trace and escape flag of one `handle()` call; `escaped = true` means an
exception left `handle` (after the `finally` logging). -/
structure HandleResult where
  events : List Event
  escaped : Bool

def sizeErrorMsg : List Char := chars "ERROR: Script size exceeds limit."
def decodeErrorMsg : List Char := chars "ERROR: Invalid UTF-8 data received."
def timeoutErrorMsg : List Char := chars "ERROR: Execution timed out"
def internalErrorMsg : List Char := chars "SERVER ERROR: An internal error occurred."

/-- The read loop of `handle` (`server.py` 23–33): before each `recv` the
accumulated length is checked against `MAX_SCRIPT_SIZE`; result `none`
means the size limit fired (remaining chunks unread, no EOF observed),
`some acc` means EOF was reached with `acc` accumulated. -/
def readPhase : List (List Nat) → List Nat → List Event × Option (List Nat)
  | chunks, acc =>
    if acc.length > MAX_SCRIPT_SIZE then ([], none)
    else
      match chunks with
      | [] => ([Event.recvEof], some acc)
      | c :: rest =>
        if c = [] then ([Event.recvEof], some acc)
        else
          let r := readPhase rest (acc ++ c)
          (Event.recvChunk c :: r.1, r.2)

/-- `ThreadingCodeExecutionHandler.handle` (`server.py` 18–91) as a trace
function.  Exception flow follows the source: a failing `sendall` inside
the `try` body is caught by the blanket `except Exception`, which attempts
to send the internal error message; a failing `sendall` inside an `except`
clause propagates out of `handle`.  The `with tempfile.TemporaryDirectory()`
block removes the scratch directory before control reaches the blanket
handler. -/
def handle (w : World) : HandleResult :=
  let r := readPhase w.chunks []
  match r.2 with
  | none =>
    if w.sendOk 0 then ⟨r.1 ++ [.sendOkEv sizeErrorMsg], false⟩
    else if w.sendOk 1 then
      ⟨r.1 ++ [.sendFailEv sizeErrorMsg, .sendOkEv internalErrorMsg], false⟩
    else ⟨r.1 ++ [.sendFailEv sizeErrorMsg, .sendFailEv internalErrorMsg], true⟩
  | some bytes =>
    if bytes = [] then ⟨r.1, false⟩
    else
      match utf8Decode bytes with
      | none =>
        if w.sendOk 0 then ⟨r.1 ++ [.sendOkEv decodeErrorMsg], false⟩
        else ⟨r.1 ++ [.sendFailEv decodeErrorMsg], true⟩
      | some code =>
        match w.exec with
        | .completed rc out err =>
          if w.sendOk 0 then
            ⟨r.1 ++ [.createdDir, .wroteScript code, .startedProcess,
                     .sendOkEv (encodeResponse rc out err), .removedDir], false⟩
          else if w.sendOk 1 then
            ⟨r.1 ++ [.createdDir, .wroteScript code, .startedProcess,
                     .sendFailEv (encodeResponse rc out err), .removedDir,
                     .sendOkEv internalErrorMsg], false⟩
          else
            ⟨r.1 ++ [.createdDir, .wroteScript code, .startedProcess,
                     .sendFailEv (encodeResponse rc out err), .removedDir,
                     .sendFailEv internalErrorMsg], true⟩
        | .timedOut _ _ =>
          if w.sendOk 0 then
            ⟨r.1 ++ [.createdDir, .wroteScript code, .startedProcess,
                     .sendOkEv timeoutErrorMsg, .removedDir], false⟩
          else if w.sendOk 1 then
            ⟨r.1 ++ [.createdDir, .wroteScript code, .startedProcess,
                     .sendFailEv timeoutErrorMsg, .removedDir,
                     .sendOkEv internalErrorMsg], false⟩
          else
            ⟨r.1 ++ [.createdDir, .wroteScript code, .startedProcess,
                     .sendFailEv timeoutErrorMsg, .removedDir,
                     .sendFailEv internalErrorMsg], true⟩
        | .raised =>
          if w.sendOk 0 then
            ⟨r.1 ++ [.createdDir, .wroteScript code, .startedProcess,
                     .removedDir, .sendOkEv internalErrorMsg], false⟩
          else
            ⟨r.1 ++ [.createdDir, .wroteScript code, .startedProcess,
                     .removedDir, .sendFailEv internalErrorMsg], true⟩

/-- A response-write event, successful or failed. -/
def isSend : Event → Bool
  | .sendOkEv _ => true
  | .sendFailEv _ => true
  | _ => false

/-- No two consecutive newline characters (used to locate the first
`"\n\n"` of an encoded response). -/
def noDoubleNL : List Char → Bool
  | [] => true
  | [_] => true
  | c :: c2 :: rest =>
    if c = '\n' ∧ c2 = '\n' then false else noDoubleNL (c2 :: rest)


/-! ### Basic facts about the scanning primitives -/

theorem isPrefixB_iff (p l : List Char) : isPrefixB p l = true ↔ ∃ t, p ++ t = l := by
  induction p generalizing l with
  | nil => simp [isPrefixB]
  | cons a as ih =>
    cases l with
    | nil =>
      simp only [isPrefixB]
      constructor
      · intro h; exact absurd h (by simp)
      · rintro ⟨t, ht⟩; simp at ht
    | cons b bs =>
      by_cases hab : a = b
      · subst hab
        rw [isPrefixB, if_pos rfl, ih]
        constructor
        · rintro ⟨t, rfl⟩; exact ⟨t, rfl⟩
        · rintro ⟨t, ht⟩
          injection ht with _ h2
          exact ⟨t, h2⟩
      · rw [isPrefixB, if_neg hab]
        constructor
        · intro h; exact absurd h (by simp)
        · rintro ⟨t, ht⟩
          injection ht with h1 _
          exact absurd h1 hab

theorem isPrefixB_append_self (p t : List Char) : isPrefixB p (p ++ t) = true :=
  (isPrefixB_iff p (p ++ t)).2 ⟨t, rfl⟩

theorem splitOnce_eq_some {sep s a b : List Char}
    (h : splitOnce sep s = some (a, b)) : s = a ++ sep ++ b := by
  induction s generalizing a with
  | nil => simp [splitOnce] at h
  | cons c rest ih =>
    by_cases hp : isPrefixB sep (c :: rest) = true
    · rw [splitOnce, if_pos hp] at h
      obtain ⟨t, ht⟩ := (isPrefixB_iff _ _).1 hp
      injection h with h'
      injection h' with h1 h2
      subst h1
      have hd : (c :: rest).drop sep.length = t := by
        rw [← ht, List.drop_left]
      rw [hd] at h2
      subst h2
      simpa using ht.symm
    · rw [splitOnce, if_neg hp] at h
      cases hmatch : splitOnce sep rest with
      | none => rw [hmatch] at h; cases h
      | some ab =>
        obtain ⟨a', b'⟩ := ab
        rw [hmatch] at h
        injection h with h'
        injection h' with h1 h2
        subst h2
        have := ih hmatch
        subst h1
        simp [this]

theorem splitOnce_self (sep b : List Char) (hsep : sep ≠ []) :
    splitOnce sep (sep ++ b) = some ([], b) := by
  obtain ⟨d, sep', rfl⟩ : ∃ d sep', sep = d :: sep' := by
    cases sep with
    | nil => exact absurd rfl hsep
    | cons d sep' => exact ⟨d, sep', rfl⟩
  have hpre : isPrefixB (d :: sep') (d :: (sep' ++ b)) = true := by
    have := isPrefixB_append_self (d :: sep') b
    simpa using this
  have hdrop : (d :: (sep' ++ b)).drop (d :: sep').length = b := by
    have := List.drop_left (d :: sep') b
    simpa using this
  simp only [List.cons_append]
  rw [splitOnce, if_pos hpre, hdrop]

theorem splitOnce_append_isSome (sep a b : List Char) (hsep : sep ≠ []) :
    (splitOnce sep (a ++ sep ++ b)).isSome = true := by
  induction a with
  | nil =>
    simp only [List.nil_append]
    rw [splitOnce_self sep b hsep]
    rfl
  | cons c a' ih =>
    simp only [List.cons_append, List.append_assoc] at ih ⊢
    rw [splitOnce]
    by_cases hp : isPrefixB sep (c :: (a' ++ (sep ++ b))) = true
    · rw [if_pos hp]; rfl
    · rw [if_neg (by simp [hp])]
      cases hmatch : splitOnce sep (a' ++ (sep ++ b)) with
      | none => rw [hmatch] at ih; simp at ih
      | some ab => obtain ⟨x, y⟩ := ab; rfl

theorem pyContains_of_parts {sub s x y : List Char} (hsub : sub ≠ [])
    (h : s = x ++ sub ++ y) : pyContains sub s = true := by
  rw [h]; exact splitOnce_append_isSome sub x y hsub

/-- If no occurrence of `sep` begins inside `a`, the leftmost occurrence of
`sep` in `a ++ sep ++ b` is the middle one. -/
theorem splitOnce_first (sep a b : List Char) (hsep : sep ≠ [])
    (hno : ∀ y, (∃ x, x ++ y = a) → y ≠ [] → isPrefixB sep (y ++ sep ++ b) = false) :
    splitOnce sep (a ++ sep ++ b) = some (a, b) := by
  induction a with
  | nil =>
    simp only [List.nil_append]
    exact splitOnce_self sep b hsep
  | cons c a' ih =>
    have hstep : isPrefixB sep ((c :: a') ++ sep ++ b) = false :=
      hno (c :: a') ⟨[], rfl⟩ (by simp)
    have ih' : splitOnce sep (a' ++ sep ++ b) = some (a', b) :=
      ih (fun y hx hy => by
        obtain ⟨x, hxeq⟩ := hx
        exact hno y ⟨c :: x, by rw [← hxeq]; rfl⟩ hy)
    simp only [List.cons_append, List.append_assoc] at hstep ih' ⊢
    rw [splitOnce, if_neg (by simp [hstep]), ih']

/-- An occurrence of `sep` at the start of `y ++ b`: the first
`min |sep| |y|` characters of `sep` and `y` agree. -/
theorem prefix_overlap {sep y b : List Char} (h : isPrefixB sep (y ++ b) = true) :
    sep.take y.length = y.take sep.length := by
  obtain ⟨t, ht⟩ := (isPrefixB_iff _ _).1 h
  have h1 : y.take sep.length ++ b.take (sep.length - y.length) = sep := by
    rw [← List.take_append_eq_append_take, ← ht, List.take_left]
  by_cases hlen : y.length ≤ sep.length
  · have hy : y.take sep.length = y := List.take_of_length_le hlen
    rw [hy] at h1 ⊢
    rw [← h1, List.take_left]
  · push_neg at hlen
    have h0 : sep.length - y.length = 0 := by omega
    rw [h0, List.take_zero, List.append_nil] at h1
    rw [List.take_of_length_le (by omega : sep.length ≤ y.length), h1]

/-- An occurrence of `sep` inside `A ++ B` lies inside `B` or starts
inside `A`. -/
theorem occ_append_split {A B u v sep : List Char} (h : A ++ B = u ++ sep ++ v) :
    (∃ u2 v2, B = u2 ++ sep ++ v2) ∨
    (∃ y, (∃ x, x ++ y = A) ∧ y ≠ [] ∧ isPrefixB sep (y ++ B) = true) := by
  by_cases hlen : A.length ≤ u.length
  · left
    have hA : A = u.take A.length := by
      have h1 : (A ++ B).take A.length = A := List.take_left A B
      rw [h, show u ++ sep ++ v = u ++ (sep ++ v) by simp,
          List.take_append_eq_append_take] at h1
      have h0 : A.length - u.length = 0 := by omega
      rw [h0, List.take_zero, List.append_nil] at h1
      exact h1.symm
    have hu : u = A ++ u.drop A.length := by
      conv_lhs => rw [← List.take_append_drop A.length u, ← hA]
    rw [hu] at h
    simp only [List.append_assoc] at h
    have hB : B = u.drop A.length ++ (sep ++ v) := List.append_cancel_left h
    exact ⟨u.drop A.length, v, by rw [hB, ← List.append_assoc]⟩
  · right
    push_neg at hlen
    refine ⟨A.drop u.length, ⟨A.take u.length, List.take_append_drop _ _⟩, ?_, ?_⟩
    · intro hnil
      have := congrArg List.length hnil
      simp only [List.length_drop, List.length_nil] at this
      omega
    · have h1 : (A ++ B).drop u.length = A.drop u.length ++ B := by
        rw [List.drop_append_eq_append_drop]
        have h0 : u.length - A.length = 0 := by omega
        rw [h0]
        simp
      have h2 : (A ++ B).drop u.length = sep ++ v := by
        rw [h, show u ++ sep ++ v = u ++ (sep ++ v) by simp, List.drop_left]
      rw [h1] at h2
      rw [h2]
      exact isPrefixB_append_self _ _

/-! ### Decimal printing and `int(...)` parsing -/

theorem digitChar_toNat {d : Nat} (hd : d < 10) : (digitChar d).toNat = 48 + d := by
  interval_cases d <;> rfl

theorem digitChar_isDigit {d : Nat} (hd : d < 10) :
    48 ≤ (digitChar d).toNat ∧ (digitChar d).toNat ≤ 57 := by
  rw [digitChar_toNat hd]; omega

theorem natDigitsAux_fuel : ∀ n : Nat, ∀ f1 f2 acc, n < f1 → n < f2 →
    natDigitsAux f1 n acc = natDigitsAux f2 n acc := by
  intro n
  induction n using Nat.strong_induction_on with
  | _ n ih =>
    intro f1 f2 acc h1 h2
    obtain ⟨g1, rfl⟩ : ∃ g1, f1 = g1 + 1 := ⟨f1 - 1, by omega⟩
    obtain ⟨g2, rfl⟩ : ∃ g2, f2 = g2 + 1 := ⟨f2 - 1, by omega⟩
    by_cases h10 : n < 10
    · rw [natDigitsAux, if_pos h10, natDigitsAux, if_pos h10]
    · push_neg at h10
      rw [natDigitsAux, if_neg (by omega), natDigitsAux, if_neg (by omega)]
      have hdiv : n / 10 < n := Nat.div_lt_self (by omega) (by omega)
      exact ih _ hdiv _ _ _ (by omega) (by omega)

theorem natDigitsAux_acc : ∀ fuel : Nat, ∀ n acc, n < fuel →
    natDigitsAux fuel n acc = natDigitsAux fuel n [] ++ acc := by
  intro fuel
  induction fuel with
  | zero => intro n acc h; omega
  | succ f ih =>
    intro n acc h
    by_cases h10 : n < 10
    · rw [natDigitsAux, if_pos h10, natDigitsAux, if_pos h10]; rfl
    · rw [natDigitsAux, if_neg (by omega), natDigitsAux, if_neg (by omega)]
      have hdiv : n / 10 < f := by
        have := Nat.div_lt_self (show 0 < n by omega) (show 1 < 10 by omega)
        omega
      rw [ih _ _ hdiv, ih _ [digitChar (n % 10)] hdiv, List.append_assoc]
      rfl

/-- The pretty recurrence of the decimal printer. -/
theorem natDigits_eq (n : Nat) :
    natDigits n = if n < 10 then [digitChar n]
                  else natDigits (n / 10) ++ [digitChar (n % 10)] := by
  by_cases h10 : n < 10
  · rw [if_pos h10, natDigits, natDigitsAux, if_pos h10]
  · push_neg at h10
    have hdiv : n / 10 < n := Nat.div_lt_self (by omega) (by omega)
    rw [if_neg (by omega), natDigits, natDigitsAux, if_neg (by omega)]
    rw [natDigitsAux_fuel _ _ (n / 10 + 1) _ (by omega) (by omega)]
    rw [natDigitsAux_acc _ _ _ (by omega)]
    rfl

theorem natDigits_all_digits (n : Nat) :
    ∀ c ∈ natDigits n, 48 ≤ c.toNat ∧ c.toNat ≤ 57 := by
  induction n using Nat.strong_induction_on with
  | _ n ih =>
    rw [natDigits_eq]
    by_cases h10 : n < 10
    · rw [if_pos h10]
      intro c hc
      simp only [List.mem_singleton] at hc
      subst hc
      exact digitChar_isDigit h10
    · push_neg at h10
      rw [if_neg (by omega)]
      intro c hc
      rcases List.mem_append.1 hc with h | h
      · exact ih (n / 10) (Nat.div_lt_self (by omega) (by omega)) c h
      · simp only [List.mem_singleton] at h
        subst h
        exact digitChar_isDigit (Nat.mod_lt _ (by omega))

theorem natDigits_ne_nil (n : Nat) : natDigits n ≠ [] := by
  rw [natDigits_eq]
  by_cases h10 : n < 10
  · rw [if_pos h10]; simp
  · rw [if_neg h10]; simp

theorem parseDigitsCore_digits (l : List Char)
    (hl : ∀ c ∈ l, 48 ≤ c.toNat ∧ c.toNat ≤ 57) (acc : Nat) :
    parseDigitsCore acc l =
      some (l.foldl (fun a c => a * 10 + (c.toNat - 48)) acc) := by
  induction l generalizing acc with
  | nil => rfl
  | cons c rest ih =>
    have hc := hl c (by simp)
    have hne : c ≠ '_' := by
      intro hceq
      subst hceq
      have h95 : ('_').toNat = 95 := rfl
      omega
    have hdv : digitVal c = some (c.toNat - 48) := by rw [digitVal, if_pos hc]
    rw [parseDigitsCore.eq_def]
    simp only []
    rw [if_neg hne, hdv]
    simp only []
    rw [ih (fun x hx => hl x (by simp [hx]))]
    rfl

theorem natDigits_foldl (n : Nat) : ∀ acc : Nat,
    (natDigits n).foldl (fun a c => a * 10 + (c.toNat - 48)) acc =
      acc * 10 ^ (natDigits n).length + n := by
  induction n using Nat.strong_induction_on with
  | _ n ih =>
    intro acc
    rw [natDigits_eq]
    by_cases h10 : n < 10
    · rw [if_pos h10]
      simp only [List.foldl_cons, List.foldl_nil, List.length_singleton]
      rw [digitChar_toNat h10, pow_one]
      omega
    · push_neg at h10
      rw [if_neg (by omega)]
      rw [List.foldl_append]
      have hdiv : n / 10 < n := Nat.div_lt_self (by omega) (by omega)
      rw [ih _ hdiv acc]
      simp only [List.foldl_cons, List.foldl_nil, List.length_append,
        List.length_singleton]
      rw [digitChar_toNat (Nat.mod_lt _ (by omega))]
      have hmod : 48 + n % 10 - 48 = n % 10 := by omega
      rw [hmod, pow_succ]
      have hdm : n / 10 * 10 + n % 10 = n := by omega
      calc (acc * 10 ^ (natDigits (n / 10)).length + n / 10) * 10 + n % 10
          = acc * (10 ^ (natDigits (n / 10)).length * 10) +
              (n / 10 * 10 + n % 10) := by ring
        _ = acc * (10 ^ (natDigits (n / 10)).length * 10) + n := by rw [hdm]

theorem parseUnsigned_natDigits (n : Nat) : parseUnsigned (natDigits n) = some n := by
  obtain ⟨c, t, hct⟩ : ∃ c t, natDigits n = c :: t := by
    cases h : natDigits n with
    | nil => exact absurd h (natDigits_ne_nil n)
    | cons c t => exact ⟨c, t, rfl⟩
  have hall := natDigits_all_digits n
  rw [hct] at hall
  have hc := hall c (by simp)
  have hdv : digitVal c = some (c.toNat - 48) := by rw [digitVal, if_pos hc]
  rw [hct, parseUnsigned, hdv]
  show parseDigitsCore (c.toNat - 48) t = some n
  rw [parseDigitsCore_digits t (fun x hx => hall x (by simp [hx]))]
  have hfold := natDigits_foldl n 0
  rw [hct] at hfold
  simp only [List.foldl_cons, Nat.zero_mul, Nat.zero_add] at hfold
  rw [hfold]

/-! ### Character classes, strip, replace, splitlines -/

theorem pyParseInt_pyIntStr (i : Int) : pyParseInt (pyIntStr i) = some i := by
  by_cases hneg : i < 0
  · rw [pyIntStr, if_pos hneg]
    show (parseUnsigned (natDigits i.natAbs)).map (fun n => -(n : Int)) = some i
    rw [parseUnsigned_natDigits]
    show some (-(i.natAbs : Int)) = some i
    congr 1
    omega
  · push_neg at hneg
    rw [pyIntStr, if_neg (by omega)]
    obtain ⟨c, t, hct⟩ : ∃ c t, natDigits i.toNat = c :: t := by
      cases h : natDigits i.toNat with
      | nil => exact absurd h (natDigits_ne_nil _)
      | cons c t => exact ⟨c, t, rfl⟩
    have hc := (natDigits_all_digits i.toNat) c (by rw [hct]; simp)
    have hplus : c ≠ '+' := by
      intro he; subst he; revert hc; decide
    have hminus : c ≠ '-' := by
      intro he; subst he; revert hc; decide
    rw [hct, pyParseInt.eq_def]
    simp only []
    rw [if_neg hplus, if_neg hminus, ← hct, parseUnsigned_natDigits]
    simp only [Option.map_some']
    congr 1
    show ((i.toNat : Nat) : Int) = i
    omega

theorem char_range_not_space {c : Char} (h1 : 45 ≤ c.toNat) (h2 : c.toNat ≤ 57) :
    isPySpace c = false := by
  rw [isPySpace]
  simp only [Bool.or_eq_false_iff, decide_eq_false_iff_not]
  refine ⟨⟨⟨⟨⟨?_, ?_⟩, ?_⟩, ?_⟩, ?_⟩, ?_⟩ <;>
    (intro he; subst he; revert h1 h2; decide)

theorem char_range_not_break {c : Char} (h1 : 45 ≤ c.toNat) (h2 : c.toNat ≤ 57) :
    isLineBreak c = false ∧ c ≠ '\r' := by
  constructor
  · rw [isLineBreak]
    simp only [Bool.or_eq_false_iff, decide_eq_false_iff_not]
    refine ⟨⟨⟨⟨⟨⟨⟨⟨⟨?_, ?_⟩, ?_⟩, ?_⟩, ?_⟩, ?_⟩, ?_⟩, ?_⟩, ?_⟩, ?_⟩ <;>
      (intro he; subst he; revert h1 h2; decide)
  · intro he; subst he; revert h1 h2; decide

theorem char_range_not_nl {c : Char} (h1 : 45 ≤ c.toNat) (h2 : c.toNat ≤ 57) :
    c ≠ '\n' := by
  intro he; subst he; revert h1 h2; decide

theorem dropWhile_eq_self_of {p : Char → Bool} {l : List Char}
    (h : ∀ c ∈ l, p c = false) : l.dropWhile p = l := by
  cases l with
  | nil => rfl
  | cons c r => rw [List.dropWhile_cons, h c (by simp)]; simp

theorem pyStrip_of_no_space {l : List Char}
    (h : ∀ c ∈ l, isPySpace c = false) : pyStrip l = l := by
  rw [pyStrip, dropWhile_eq_self_of h,
      dropWhile_eq_self_of (fun c hc => h c (List.mem_reverse.1 hc)),
      List.reverse_reverse]

theorem pyReplace_no_occ {h0 : Char} {o' new : List Char} : ∀ {l : List Char},
    (∀ c ∈ l, c ≠ h0) → pyReplace (h0 :: o') new l = l := by
  intro l
  induction l with
  | nil =>
    intro _
    rw [pyReplace.eq_def]
  | cons c r ih =>
    intro h
    have hne : isPrefixB (h0 :: o') (c :: r) = false := by
      rw [isPrefixB, if_neg (fun he => (h c (by simp)) he.symm)]
    rw [pyReplace]
    rw [dif_neg (by simp [hne])]
    rw [ih (fun x hx => h x (by simp [hx]))]

theorem pyReplace_front {old new t : List Char} (h : old ≠ []) :
    pyReplace old new (old ++ t) = new ++ pyReplace old new t := by
  obtain ⟨d, o', rfl⟩ : ∃ d o', old = d :: o' := by
    cases old with
    | nil => exact absurd rfl h
    | cons d o' => exact ⟨d, o', rfl⟩
  have hpre : isPrefixB (d :: o') (d :: (o' ++ t)) = true := by
    have := isPrefixB_append_self (d :: o') t
    simpa using this
  have hdrop : (d :: (o' ++ t)).drop (d :: o').length = t := by
    have := List.drop_left (d :: o') t
    simpa using this
  simp only [List.cons_append]
  rw [pyReplace]
  rw [dif_pos ⟨h, hpre⟩, hdrop]

theorem pyReplaceOnce_front {old new t : List Char} (h : old ≠ []) :
    pyReplaceOnce old new (old ++ t) = new ++ t := by
  obtain ⟨d, o', rfl⟩ : ∃ d o', old = d :: o' := by
    cases old with
    | nil => exact absurd rfl h
    | cons d o' => exact ⟨d, o', rfl⟩
  have hpre : isPrefixB (d :: o') (d :: (o' ++ t)) = true := by
    have := isPrefixB_append_self (d :: o') t
    simpa using this
  have hdrop : (d :: (o' ++ t)).drop (d :: o').length = t := by
    have := List.drop_left (d :: o') t
    simpa using this
  simp only [List.cons_append]
  rw [pyReplaceOnce, if_pos ⟨h, hpre⟩, hdrop]

theorem splitlinesAux_flat : ∀ {l : List Char},
    (∀ c ∈ l, isLineBreak c = false ∧ c ≠ '\r') → ∀ acc,
    splitlinesAux l acc =
      if acc = [] ∧ l = [] then [] else [acc.reverse ++ l] := by
  intro l
  induction l with
  | nil =>
    intro _ acc
    rw [splitlinesAux]
    by_cases hacc : acc = []
    · simp [hacc]
    · simp [hacc]
  | cons c r ih =>
    intro h acc
    have hc := h c (by simp)
    rw [splitlinesAux, if_neg hc.2]
    rw [if_neg (by rw [hc.1]; simp)]
    rw [ih (fun x hx => h x (by simp [hx])) (c :: acc)]
    simp

theorem splitlinesAux_break : ∀ {A : List Char},
    (∀ c ∈ A, isLineBreak c = false ∧ c ≠ '\r') → ∀ rest acc,
    splitlinesAux (A ++ '\n' :: rest) acc =
      (acc.reverse ++ A) :: splitlinesAux rest [] := by
  intro A
  induction A with
  | nil =>
    intro _ rest acc
    simp only [List.nil_append]
    rw [splitlinesAux, if_neg (by decide : ¬('\n' = '\r'))]
    rw [if_pos (by decide : isLineBreak '\n' = true)]
    simp
  | cons c A' ih =>
    intro h rest acc
    have hc := h c (by simp)
    simp only [List.cons_append]
    rw [splitlinesAux, if_neg hc.2]
    rw [if_neg (by rw [hc.1]; simp)]
    rw [ih (fun x hx => h x (by simp [hx])) rest (c :: acc)]
    simp

/-! ### Locating the wire markers in an encoded response -/

theorem noDoubleNL_cons_cons (c c2 : Char) (r : List Char) :
    noDoubleNL (c :: c2 :: r) =
      if c = '\n' ∧ c2 = '\n' then false else noDoubleNL (c2 :: r) := by
  rw [noDoubleNL.eq_def]

theorem noDoubleNL_tail {c : Char} {l : List Char} (h : noDoubleNL (c :: l) = true) :
    noDoubleNL l = true := by
  cases l with
  | nil => rfl
  | cons c2 r =>
    rw [noDoubleNL_cons_cons] at h
    by_cases hcc : c = '\n' ∧ c2 = '\n'
    · rw [if_pos hcc] at h; cases h
    · rw [if_neg hcc] at h; exact h

theorem noDoubleNL_no_sub : ∀ {x : List Char} {l r : List Char},
    noDoubleNL l = true → l ≠ x ++ '\n' :: '\n' :: r := by
  intro x
  induction x with
  | nil =>
    intro l r h he
    subst he
    simp only [List.nil_append] at h
    rw [noDoubleNL_cons_cons, if_pos ⟨rfl, rfl⟩] at h
    cases h
  | cons c x' ih =>
    intro l r h he
    subst he
    exact ih (noDoubleNL_tail h) rfl

theorem noNL_noDoubleNL : ∀ {l : List Char},
    (∀ c ∈ l, c ≠ '\n') → noDoubleNL l = true := by
  intro l
  induction l with
  | nil => intro _; rfl
  | cons c r ih =>
    intro h
    cases r with
    | nil => rfl
    | cons c2 r2 =>
      rw [noDoubleNL_cons_cons, if_neg (fun hc => (h c2 (by simp)) hc.2)]
      exact ih (fun x hx => h x (by simp [hx]))

theorem noDoubleNL_append : ∀ {l1 : List Char}, noDoubleNL l1 = true →
    ∀ {l2 : List Char}, (∀ c ∈ l2, c ≠ '\n') → noDoubleNL (l1 ++ l2) = true := by
  intro l1
  induction l1 with
  | nil => intro _ l2 h2; simpa using noNL_noDoubleNL h2
  | cons c r ih =>
    intro h1 l2 h2
    cases r with
    | nil =>
      simp only [List.cons_append, List.nil_append]
      cases l2 with
      | nil => rfl
      | cons d l2' =>
        rw [noDoubleNL_cons_cons, if_neg (fun hc => (h2 d (by simp)) hc.2)]
        exact noNL_noDoubleNL h2
    | cons c2 r2 =>
      simp only [List.cons_append]
      rw [noDoubleNL_cons_cons] at h1
      by_cases hcc : c = '\n' ∧ c2 = '\n'
      · rw [if_pos hcc] at h1; cases h1
      · rw [if_neg hcc] at h1
        have hrec := ih h1 h2
        simp only [List.cons_append] at hrec
        rw [noDoubleNL_cons_cons, if_neg hcc]
        exact hrec

theorem mem_of_getLast_eq {l : List Char} {a : Char} (h : l.getLast? = some a) :
    a ∈ l := by
  induction l with
  | nil => cases h
  | cons c r ih =>
    cases r with
    | nil =>
      simp only [List.getLast?_singleton, Option.some_inj] at h
      simp [h]
    | cons c2 r2 =>
      rw [List.getLast?_cons_cons] at h
      simp [ih h]

theorem pyIntStr_range (i : Int) : ∀ c ∈ pyIntStr i, 45 ≤ c.toNat ∧ c.toNat ≤ 57 := by
  rw [pyIntStr]
  split
  · intro c hc
    rcases List.mem_cons.1 hc with rfl | h
    · constructor <;> decide
    · have := natDigits_all_digits _ c h; omega
  · intro c hc
    have := natDigits_all_digits _ c hc; omega

theorem pyIntStr_ne_nil (i : Int) : pyIntStr i ≠ [] := by
  rw [pyIntStr]
  split
  · simp
  · exact natDigits_ne_nil _

theorem not_ends_nl {H ds : List Char} (hne : ds ≠ [])
    (hds : ∀ c ∈ ds, 45 ≤ c.toNat ∧ c.toNat ≤ 57) :
    ∀ x, x ++ ['\n'] ≠ H ++ ds := by
  intro x he
  have h1 : (x ++ ['\n']).getLast? = some '\n' := List.getLast?_concat x
  rw [he, List.getLast?_append] at h1
  obtain ⟨d, hd⟩ : ∃ d, ds.getLast? = some d := by
    cases hgl : ds.getLast? with
    | none => exact absurd (List.getLast?_eq_none_iff.1 hgl) hne
    | some d => exact ⟨d, rfl⟩
  rw [hd] at h1
  have hdn : d = '\n' := by
    cases h1
    rfl
  subst hdn
  have h2 : '\n' ∈ ds := mem_of_getLast_eq hd
  have := hds '\n' h2
  revert this
  decide

/-- Any occurrence of `"--- STDERR ---"` in `"--- STDOUT ---\n" ++ out`
lies inside `out`: no nonempty suffix of the stdout banner is a prefix of
the stderr banner or vice versa. -/
theorem no_inner_in_stdout_part {out : List Char}
    (hout : pyContains (chars "--- STDERR ---") out = false) :
    ∀ u v, chars "--- STDOUT ---\n" ++ out ≠ u ++ chars "--- STDERR ---" ++ v := by
  intro u v he
  rcases occ_append_split he with ⟨u2, v2, hB⟩ | ⟨y, ⟨x, hx⟩, hyne, hpre⟩
  · have hc := pyContains_of_parts (show chars "--- STDERR ---" ≠ [] by decide) hB
    rw [hout] at hc; cases hc
  · have hov := prefix_overlap hpre
    have hmem : y ∈ (chars "--- STDOUT ---\n").tails :=
      (List.mem_tails y (chars "--- STDOUT ---\n")).2 ⟨x, hx⟩
    have hdec : ∀ z ∈ (chars "--- STDOUT ---\n").tails, z ≠ [] →
        ¬((chars "--- STDERR ---").take z.length =
          z.take (chars "--- STDERR ---").length) := by decide
    exact hdec y hmem hyne hov

theorem isPrefixB_cons_ne {a b : Char} {as bs : List Char} (h : ¬(a = b)) :
    isPrefixB (a :: as) (b :: bs) = false := by
  rw [isPrefixB, if_neg h]

/-- No occurrence of `"\n\n"` starts inside the header
`"--- Execution Result ---\nReturn Code: " ++ str(rc)`. -/
theorem header_no_early_nn (rc : Int) :
    ∀ y, (∃ x, x ++ y = chars "--- Execution Result ---\nReturn Code: " ++ pyIntStr rc) →
      y ≠ [] → ∀ b, isPrefixB (chars "\n\n") (y ++ chars "\n\n" ++ b) = false := by
  intro y hsuf hyne b
  by_contra hpreN
  rw [Bool.not_eq_false] at hpreN
  obtain ⟨x, hx⟩ := hsuf
  have hrange := pyIntStr_range rc
  have hnodd : noDoubleNL (chars "--- Execution Result ---\nReturn Code: " ++
      pyIntStr rc) = true :=
    noDoubleNL_append (by decide)
      (fun c hc => char_range_not_nl (hrange c hc).1 (hrange c hc).2)
  cases y with
  | nil => exact hyne rfl
  | cons c ytail =>
    cases ytail with
    | nil =>
      have hc : c = '\n' := by
        have hsh : ([c] ++ chars "\n\n" ++ b) = c :: '\n' :: '\n' :: b := by
          simp [chars]
        rw [hsh] at hpreN
        rw [show chars "\n\n" = '\n' :: '\n' :: ([] : List Char) from by decide] at hpreN
        by_cases hcc : '\n' = c
        · exact hcc.symm
        · rw [isPrefixB_cons_ne hcc] at hpreN
          cases hpreN
      subst hc
      exact not_ends_nl (pyIntStr_ne_nil rc) hrange x hx
    | cons c2 yr =>
      have hcc : c = '\n' ∧ c2 = '\n' := by
        have hsh : ((c :: c2 :: yr) ++ chars "\n\n" ++ b) =
            c :: c2 :: (yr ++ chars "\n\n" ++ b) := by simp
        rw [hsh] at hpreN
        rw [show chars "\n\n" = '\n' :: '\n' :: ([] : List Char) from by decide] at hpreN
        by_cases h1 : '\n' = c
        · rw [← h1] at hpreN ⊢
          rw [isPrefixB, if_pos rfl] at hpreN
          by_cases h2 : '\n' = c2
          · exact ⟨rfl, h2.symm⟩
          · rw [isPrefixB_cons_ne h2] at hpreN
            cases hpreN
        · rw [isPrefixB_cons_ne h1] at hpreN
          cases hpreN
      obtain ⟨rfl, rfl⟩ := hcc
      exact noDoubleNL_no_sub hnodd hx.symm

/-- No occurrence of the full `"\n--- STDERR ---\n"` marker starts inside
`"--- STDOUT ---\n" ++ out` when `out` does not contain the
`"--- STDERR ---"` banner. -/
theorem stdout_part_no_early_M {out err : List Char}
    (hout : pyContains (chars "--- STDERR ---") out = false) :
    ∀ y, (∃ x, x ++ y = chars "--- STDOUT ---\n" ++ out) → y ≠ [] →
      isPrefixB (chars "\n--- STDERR ---\n")
        (y ++ chars "\n--- STDERR ---\n" ++ err) = false := by
  intro y hsuf hyne
  by_contra hpreM
  rw [Bool.not_eq_false] at hpreM
  obtain ⟨x, hx⟩ := hsuf
  have hpre2 : isPrefixB (chars "\n--- STDERR ---\n")
      (y ++ (chars "\n--- STDERR ---\n" ++ err)) = true := by
    simpa [List.append_assoc] using hpreM
  have hov := prefix_overlap hpre2
  by_cases hlen : (chars "\n--- STDERR ---\n").length ≤ y.length
  · have hyM : y.take (chars "\n--- STDERR ---\n").length =
        chars "\n--- STDERR ---\n" := by
      rw [← hov, List.take_of_length_le hlen]
    obtain ⟨yd, hy⟩ : ∃ yd, y = chars "\n--- STDERR ---\n" ++ yd :=
      ⟨y.drop (chars "\n--- STDERR ---\n").length, by
        conv_lhs => rw [← List.take_append_drop (chars "\n--- STDERR ---\n").length y, hyM]⟩
    apply no_inner_in_stdout_part hout (x ++ ['\n']) ('\n' :: yd)
    rw [← hx, hy, show chars "\n--- STDERR ---\n" =
        '\n' :: (chars "--- STDERR ---" ++ ['\n']) from by decide]
    simp [List.append_assoc]
  · push_neg at hlen
    have hyM : y = (chars "\n--- STDERR ---\n").take y.length := by
      have h1 : y.take (chars "\n--- STDERR ---\n").length = y :=
        List.take_of_length_le (by omega)
      rw [h1] at hov
      exact hov.symm
    by_cases h15 : y.length = 15
    · have hy15 : y = '\n' :: chars "--- STDERR ---" := by
        rw [hyM, h15]
        decide
      apply no_inner_in_stdout_part hout (x ++ ['\n']) []
      rw [← hx, hy15]
      simp
    · have hk : 1 ≤ y.length ∧ y.length ≤ 14 := by
        have hM16 : (chars "\n--- STDERR ---\n").length = 16 := by decide
        constructor
        · cases y with
          | nil => exact absurd rfl hyne
          | cons _ _ => simp
        · omega
      obtain ⟨t, ht⟩ := (isPrefixB_iff _ _).1 hpre2
      have hMsplit : chars "\n--- STDERR ---\n" =
          y ++ (chars "\n--- STDERR ---\n").take
            ((chars "\n--- STDERR ---\n").length - y.length) := by
        have h1 : (y ++ (chars "\n--- STDERR ---\n" ++ err)).take
            (chars "\n--- STDERR ---\n").length = chars "\n--- STDERR ---\n" := by
          rw [← ht, List.take_left]
        rw [List.take_append_eq_append_take,
            List.take_of_length_le
              (by omega : y.length ≤ (chars "\n--- STDERR ---\n").length),
            List.take_append_eq_append_take] at h1
        have h0 : (chars "\n--- STDERR ---\n").length - y.length -
            (chars "\n--- STDERR ---\n").length = 0 := by omega
        rw [h0] at h1
        simp only [List.take_zero, List.append_nil] at h1
        exact h1.symm
      have hdec : ∀ k < 16, 1 ≤ k → k ≤ 14 →
          ¬(chars "\n--- STDERR ---\n" =
            (chars "\n--- STDERR ---\n").take k ++
            (chars "\n--- STDERR ---\n").take
              ((chars "\n--- STDERR ---\n").length - k)) := by decide
      apply hdec y.length (by omega) hk.1 hk.2
      calc chars "\n--- STDERR ---\n"
          = y ++ (chars "\n--- STDERR ---\n").take
              ((chars "\n--- STDERR ---\n").length - y.length) := hMsplit
        _ = (chars "\n--- STDERR ---\n").take y.length ++
              (chars "\n--- STDERR ---\n").take
                ((chars "\n--- STDERR ---\n").length - y.length) := by
            rw [← hyM]

theorem no_M_in_err {err : List Char}
    (herr : pyContains (chars "--- STDERR ---") err = false) :
    splitOnce (chars "\n--- STDERR ---\n") err = none := by
  cases hs : splitOnce (chars "\n--- STDERR ---\n") err with
  | none => rfl
  | some ab =>
    obtain ⟨p, q⟩ := ab
    have hdecomp := splitOnce_eq_some hs
    have hcontra : pyContains (chars "--- STDERR ---") err = true := by
      refine pyContains_of_parts (show chars "--- STDERR ---" ≠ [] by decide)
        (show err = (p ++ ['\n']) ++ chars "--- STDERR ---" ++ ('\n' :: q) from ?_)
      rw [hdecomp, show chars "\n--- STDERR ---\n" =
          '\n' :: (chars "--- STDERR ---" ++ ['\n']) from by decide]
      simp [List.append_assoc]
    rw [herr] at hcontra
    cases hcontra

theorem pySplitlines_header {ds : List Char}
    (hds : ∀ c ∈ ds, isLineBreak c = false ∧ c ≠ '\r') :
    pySplitlines (chars "--- Execution Result ---\nReturn Code: " ++ ds) =
      [chars "--- Execution Result ---", chars "Return Code: " ++ ds] := by
  have hsplit : chars "--- Execution Result ---\nReturn Code: " ++ ds =
      chars "--- Execution Result ---" ++ '\n' :: (chars "Return Code: " ++ ds) := by
    rw [show chars "--- Execution Result ---\nReturn Code: " =
        chars "--- Execution Result ---" ++ '\n' :: chars "Return Code: " from by decide]
    simp
  have hall : ∀ c ∈ chars "Return Code: " ++ ds, isLineBreak c = false ∧ c ≠ '\r' := by
    intro c hc
    rcases List.mem_append.1 hc with h | h
    · have hlit : ∀ d ∈ chars "Return Code: ", isLineBreak d = false ∧ d ≠ '\r' := by
        decide
      exact hlit c h
    · exact hds c h
  rw [pySplitlines, hsplit]
  rw [splitlinesAux_break (by decide) _ []]
  rw [splitlinesAux_flat hall []]
  rw [if_neg (by simp [chars])]
  simp

/-- Regrouping of the encoded response around the two delimiters the client
parser looks for. -/
theorem encode_decomp (rc : Int) (out err : List Char) :
    encodeResponse rc out err =
      (chars "--- Execution Result ---\nReturn Code: " ++ pyIntStr rc) ++
      chars "\n\n" ++
      (chars "--- STDOUT ---\n" ++ out ++ chars "\n--- STDERR ---\n" ++ err) := by
  rw [encodeResponse]
  rw [show chars "--- Execution Result ---\nReturn Code: " =
      chars "--- Execution Result ---\n" ++ chars "Return Code: " from by decide]
  rw [show chars "\n--- STDERR ---\n" =
      chars "\n" ++ chars "--- STDERR ---\n" from by decide]
  simp [List.append_assoc]

theorem enc_not_error (t : List Char) :
    isPrefixB (chars "ERROR:")
      (chars "--- Execution Result ---\nReturn Code: " ++ t) = false := by
  rw [show chars "--- Execution Result ---\nReturn Code: " =
      '-' :: chars "-- Execution Result ---\nReturn Code: " from by decide]
  rw [show chars "ERROR:" = 'E' :: chars "RROR:" from by decide]
  simp only [List.cons_append]
  exact isPrefixB_cons_ne (by decide)

theorem enc_not_server_error (t : List Char) :
    isPrefixB (chars "SERVER ERROR:")
      (chars "--- Execution Result ---\nReturn Code: " ++ t) = false := by
  rw [show chars "--- Execution Result ---\nReturn Code: " =
      '-' :: chars "-- Execution Result ---\nReturn Code: " from by decide]
  rw [show chars "SERVER ERROR:" = 'S' :: chars "ERVER ERROR:" from by decide]
  simp only [List.cons_append]
  exact isPrefixB_cons_ne (by decide)

/-- C1: for every ExecutionResult whose stdout and stderr contain neither
`"--- STDOUT ---"` nor `"--- STDERR ---"`, encoding with the server's wire
format and decoding with the client's parser returns the identical
`(return_code, stdout, stderr)` triple. -/
theorem spec_c1_round_trip (rc : Int) (out err : List Char)
    (h1 : pyContains (chars "--- STDOUT ---") out = false)
    (h2 : pyContains (chars "--- STDERR ---") out = false)
    (h3 : pyContains (chars "--- STDOUT ---") err = false)
    (h4 : pyContains (chars "--- STDERR ---") err = false) :
    parseResponse (encodeResponse rc out err) =
      .ok ⟨rc, out, err⟩ := by
  rw [encode_decomp]
  have hsw1 : isPrefixB (chars "ERROR:")
      ((chars "--- Execution Result ---\nReturn Code: " ++ pyIntStr rc) ++
        chars "\n\n" ++
        (chars "--- STDOUT ---\n" ++ out ++ chars "\n--- STDERR ---\n" ++ err)) =
      false := by
    have := enc_not_error (pyIntStr rc ++ (chars "\n\n" ++
      (chars "--- STDOUT ---\n" ++ out ++ chars "\n--- STDERR ---\n" ++ err)))
    simpa [List.append_assoc] using this
  have hsw2 : isPrefixB (chars "SERVER ERROR:")
      ((chars "--- Execution Result ---\nReturn Code: " ++ pyIntStr rc) ++
        chars "\n\n" ++
        (chars "--- STDOUT ---\n" ++ out ++ chars "\n--- STDERR ---\n" ++ err)) =
      false := by
    have := enc_not_server_error (pyIntStr rc ++ (chars "\n\n" ++
      (chars "--- STDOUT ---\n" ++ out ++ chars "\n--- STDERR ---\n" ++ err)))
    simpa [List.append_assoc] using this
  have hds : ∀ c ∈ pyIntStr rc, isLineBreak c = false ∧ c ≠ '\r' :=
    fun c hc => char_range_not_break (pyIntStr_range rc c hc).1 (pyIntStr_range rc c hc).2
  have hsplit1 : splitOnce (chars "\n\n")
      ((chars "--- Execution Result ---\nReturn Code: " ++ pyIntStr rc) ++
        chars "\n\n" ++
        (chars "--- STDOUT ---\n" ++ out ++ chars "\n--- STDERR ---\n" ++ err)) =
      some (chars "--- Execution Result ---\nReturn Code: " ++ pyIntStr rc,
        chars "--- STDOUT ---\n" ++ out ++ chars "\n--- STDERR ---\n" ++ err) :=
    splitOnce_first _ _ _ (by decide)
      (fun y hs hy => header_no_early_nn rc y hs hy _)
  have hsplit2 : splitTwo (chars "\n--- STDERR ---\n")
      (chars "--- STDOUT ---\n" ++ out ++ chars "\n--- STDERR ---\n" ++ err) =
      some (chars "--- STDOUT ---\n" ++ out, err) := by
    have hfirst : splitOnce (chars "\n--- STDERR ---\n")
        ((chars "--- STDOUT ---\n" ++ out) ++ chars "\n--- STDERR ---\n" ++ err) =
        some (chars "--- STDOUT ---\n" ++ out, err) :=
      splitOnce_first _ _ _ (by decide)
        (fun y hs hy => stdout_part_no_early_M h2 y hs hy)
    rw [splitTwo, hfirst]
    simp only []
    rw [no_M_in_err h4]
    rfl
  have hrc : pyParseInt (pyStrip (pyReplace (chars "Return Code: ") []
      (chars "Return Code: " ++ pyIntStr rc))) = some rc := by
    have hrep1 : pyReplace (chars "Return Code: ") []
        (chars "Return Code: " ++ pyIntStr rc) =
        pyReplace (chars "Return Code: ") [] (pyIntStr rc) := by
      rw [pyReplace_front (by decide)]
      rfl
    have hrep2 : pyReplace (chars "Return Code: ") [] (pyIntStr rc) = pyIntStr rc := by
      rw [show chars "Return Code: " = 'R' :: chars "eturn Code: " from by decide]
      apply pyReplace_no_occ
      intro c hc he
      have hr := pyIntStr_range rc c hc
      subst he
      revert hr
      decide
    have hstrip : pyStrip (pyIntStr rc) = pyIntStr rc :=
      pyStrip_of_no_space (fun c hc =>
        char_range_not_space (pyIntStr_range rc c hc).1 (pyIntStr_range rc c hc).2)
    rw [hrep1, hrep2, hstrip, pyParseInt_pyIntStr]
  have hso : pyReplaceOnce (chars "--- STDOUT ---\n") []
      (chars "--- STDOUT ---\n" ++ out) = out := by
    have hfront : pyReplaceOnce (chars "--- STDOUT ---\n") []
        (chars "--- STDOUT ---\n" ++ out) = [] ++ out :=
      pyReplaceOnce_front (by decide)
    simpa using hfront
  rw [parseResponse, hsw1, hsw2]
  rw [if_neg (by simp)]
  rw [hsplit1]
  simp only []
  rw [pySplitlines_header hds]
  simp only [List.get?]
  rw [hsplit2]
  simp only []
  rw [hrc]
  simp only []
  rw [hso]

theorem spec_c1_round_trip_witness :
    (pyContains (chars "--- STDOUT ---") (chars "ok\n") = false ∧
     pyContains (chars "--- STDERR ---") (chars "ok\n") = false ∧
     pyContains (chars "--- STDOUT ---") (chars "") = false ∧
     pyContains (chars "--- STDERR ---") (chars "") = false) ∧
    parseResponse (encodeResponse (-42) (chars "ok\n") (chars "")) =
      .ok ⟨-42, chars "ok\n", chars ""⟩ :=
  ⟨⟨by decide, by decide, by decide, by decide⟩,
   spec_c1_round_trip (-42) (chars "ok\n") (chars "")
     (by decide) (by decide) (by decide) (by decide)⟩

/-- C5 amended: the client parser never returns an ExecutionResult for an
error-prefixed response (it raises the error carrying that text), and any
error it raises carries the raw response text in one of the two message
forms of the source.  (The parser validates only its structural steps, not
the literal markers: see the counterexample below for a marker-free
response that still parses.) -/
theorem spec_c5_parse_errors (response : List Char) :
    ((isPrefixB (chars "ERROR:") response ||
      isPrefixB (chars "SERVER ERROR:") response) = true →
      parseResponse response =
        .error (.serverResponseError
          (chars "Server returned an error: " ++ response)) ∧
      ∀ v, parseResponse response ≠ .ok v) ∧
    (∀ e, parseResponse response = .error e →
      e = .serverResponseError (chars "Server returned an error: " ++ response) ∨
      e = .serverResponseError (chars "Failed to parse server response: " ++ response)) := by
  constructor
  · intro hcond
    have herr : parseResponse response =
        .error (.serverResponseError
          (chars "Server returned an error: " ++ response)) := by
      rw [parseResponse, if_pos hcond]
    exact ⟨herr, fun v hv => by rw [herr] at hv; cases hv⟩
  · intro e he
    rw [parseResponse] at he
    by_cases hcond : (isPrefixB (chars "ERROR:") response ||
        isPrefixB (chars "SERVER ERROR:") response) = true
    · rw [if_pos hcond] at he
      left
      injection he with h'
      exact h'.symm
    · rw [if_neg hcond] at he
      right
      cases hs1 : splitOnce (chars "\n\n") response with
      | none => rw [hs1] at he; injection he with h'; exact h'.symm
      | some hr =>
        obtain ⟨header, rest⟩ := hr
        rw [hs1] at he
        simp only [] at he
        cases hs2 : (pySplitlines header).get? 1 with
        | none => rw [hs2] at he; injection he with h'; exact h'.symm
        | some rcl =>
          rw [hs2] at he
          simp only [] at he
          cases hs3 : splitTwo (chars "\n--- STDERR ---\n") rest with
          | none => rw [hs3] at he; injection he with h'; exact h'.symm
          | some sp =>
            obtain ⟨sop, sep2⟩ := sp
            rw [hs3] at he
            simp only [] at he
            cases hs4 : pyParseInt (pyStrip
                (pyReplace (chars "Return Code: ") [] rcl)) with
            | none => rw [hs4] at he; injection he with h'; exact h'.symm
            | some rc =>
              rw [hs4] at he
              simp only [] at he
              exact absurd he (by simp)

theorem spec_c5_parse_errors_witness :
    (isPrefixB (chars "ERROR:") (chars "ERROR: boom") ||
      isPrefixB (chars "SERVER ERROR:") (chars "ERROR: boom")) = true ∧
    parseResponse (chars "ERROR: boom") =
      .error (.serverResponseError
        (chars "Server returned an error: " ++ chars "ERROR: boom")) :=
  ⟨by decide, ((spec_c5_parse_errors (chars "ERROR: boom")).1 (by decide)).1⟩

/-- C10: the client parser is total: every response string yields either an
ExecutionResult or a ServerResponseError; in particular the empty response
yields a ServerResponseError. -/
theorem spec_c10_parser_total :
    (∀ response : List Char,
      (∃ v, parseResponse response = .ok v) ∨
      (∃ m, parseResponse response = .error (.serverResponseError m))) ∧
    parseResponse (chars "") =
      .error (.serverResponseError (chars "Failed to parse server response: ")) := by
  constructor
  · intro response
    cases h : parseResponse response with
    | ok v => exact Or.inl ⟨v, rfl⟩
    | error e =>
      cases e with
      | serverResponseError m => exact Or.inr ⟨m, rfl⟩
  · have h0 : parseResponse (chars "") =
        .error (.serverResponseError
          (chars "Failed to parse server response: " ++ chars "")) := rfl
    rw [h0]
    rw [show chars "" = ([] : List Char) from rfl]
    simp

/-! ### The read loop -/

theorem readPhase_complete : ∀ (chunks : List (List Nat)) (acc : List Nat),
    (∀ c ∈ chunks, c ≠ []) →
    acc.length + chunks.flatten.length ≤ MAX_SCRIPT_SIZE →
    readPhase chunks acc =
      (chunks.map Event.recvChunk ++ [Event.recvEof], some (acc ++ chunks.flatten)) := by
  intro chunks
  induction chunks with
  | nil =>
    intro acc _ hlen
    rw [readPhase]
    rw [if_neg (by simp at hlen; omega)]
    simp
  | cons c rest ih =>
    intro acc hne hlen
    rw [readPhase]
    rw [if_neg (by simp [List.flatten_cons] at hlen; omega)]
    simp only []
    rw [if_neg (hne c (by simp))]
    rw [ih (acc ++ c) (fun x hx => hne x (by simp [hx]))
      (by simp [List.flatten_cons] at hlen ⊢; omega)]
    simp [List.flatten_cons, List.append_assoc]

theorem readPhase_overflow : ∀ (chunks : List (List Nat)) (acc : List Nat),
    (∀ c ∈ chunks, c ≠ []) →
    MAX_SCRIPT_SIZE < acc.length + chunks.flatten.length →
    (readPhase chunks acc).2 = none := by
  intro chunks
  induction chunks with
  | nil =>
    intro acc _ hlen
    rw [readPhase]
    rw [if_pos (by simp at hlen; omega)]
  | cons c rest ih =>
    intro acc hne hlen
    rw [readPhase]
    by_cases hacc : acc.length > MAX_SCRIPT_SIZE
    · rw [if_pos hacc]
    · rw [if_neg hacc]
      simp only []
      rw [if_neg (hne c (by simp))]
      exact ih (acc ++ c) (fun x hx => hne x (by simp [hx]))
        (by simp [List.flatten_cons] at hlen ⊢; omega)

theorem readPhase_events_kind : ∀ (chunks : List (List Nat)) (acc : List Nat),
    ∀ e ∈ (readPhase chunks acc).1,
      (∃ c, e = Event.recvChunk c) ∨ e = Event.recvEof := by
  intro chunks
  induction chunks with
  | nil =>
    intro acc e he
    rw [readPhase] at he
    by_cases hacc : acc.length > MAX_SCRIPT_SIZE
    · rw [if_pos hacc] at he; simp at he
    · rw [if_neg hacc] at he
      simp at he
      simp [he]
  | cons c rest ih =>
    intro acc e he
    rw [readPhase] at he
    by_cases hacc : acc.length > MAX_SCRIPT_SIZE
    · rw [if_pos hacc] at he; simp at he
    · rw [if_neg hacc] at he
      simp only [] at he
      by_cases hc : c = []
      · rw [if_pos hc] at he
        simp at he
        simp [he]
      · rw [if_neg hc] at he
        simp only [List.mem_cons] at he
        rcases he with rfl | he
        · exact Or.inl ⟨c, rfl⟩
        · exact ih (acc ++ c) e he

theorem readPhase_eof_or_none : ∀ (chunks : List (List Nat)) (acc : List Nat),
    Event.recvEof ∈ (readPhase chunks acc).1 ∨ (readPhase chunks acc).2 = none := by
  intro chunks
  induction chunks with
  | nil =>
    intro acc
    rw [readPhase]
    by_cases hacc : acc.length > MAX_SCRIPT_SIZE
    · rw [if_pos hacc]; right; rfl
    · rw [if_neg hacc]; left; simp
  | cons c rest ih =>
    intro acc
    rw [readPhase]
    by_cases hacc : acc.length > MAX_SCRIPT_SIZE
    · rw [if_pos hacc]; right; rfl
    · rw [if_neg hacc]
      simp only []
      by_cases hc : c = []
      · rw [if_pos hc]; left; simp
      · rw [if_neg hc]
        rcases ih (acc ++ c) with h | h
        · left; simp [h]
        · right; exact h

/-! ### Handler-level properties -/

/-- C2: a request whose accumulated length is `MAX_SCRIPT_SIZE + 1` (any
chunking into nonempty chunks) makes the handler send
`"ERROR: Script size exceeds limit."`; no scratch directory is created, no
script file written and no interpreter process started. -/
theorem spec_c2_size_limit (chunks : List (List Nat)) (exec : ExecOutcome)
    (sendOk : Nat → Bool)
    (hne : ∀ c ∈ chunks, c ≠ [])
    (hlen : chunks.flatten.length = MAX_SCRIPT_SIZE + 1)
    (hs0 : sendOk 0 = true) :
    (handle ⟨chunks, exec, sendOk⟩).events =
      (readPhase chunks []).1 ++ [Event.sendOkEv sizeErrorMsg] ∧
    Event.createdDir ∉ (handle ⟨chunks, exec, sendOk⟩).events ∧
    (∀ code, Event.wroteScript code ∉ (handle ⟨chunks, exec, sendOk⟩).events) ∧
    Event.startedProcess ∉ (handle ⟨chunks, exec, sendOk⟩).events := by
  have hnone : (readPhase chunks []).2 = none :=
    readPhase_overflow chunks [] hne (by rw [hlen]; simp)
  have hev : (handle ⟨chunks, exec, sendOk⟩).events =
      (readPhase chunks []).1 ++ [Event.sendOkEv sizeErrorMsg] := by
    rw [handle]
    simp only [hnone, hs0]
    simp
  refine ⟨hev, ?_, ?_, ?_⟩
  · intro hmem
    rw [hev] at hmem
    rcases List.mem_append.1 hmem with h | h
    · rcases readPhase_events_kind chunks [] _ h with ⟨c, hc⟩ | hc <;> simp at hc
    · simp at h
  · intro code hmem
    rw [hev] at hmem
    rcases List.mem_append.1 hmem with h | h
    · rcases readPhase_events_kind chunks [] _ h with ⟨c, hc⟩ | hc <;> simp at hc
    · simp at h
  · intro hmem
    rw [hev] at hmem
    rcases List.mem_append.1 hmem with h | h
    · rcases readPhase_events_kind chunks [] _ h with ⟨c, hc⟩ | hc <;> simp at hc
    · simp at h

theorem spec_c2_size_limit_witness :
    (∀ c ∈ [List.replicate (MAX_SCRIPT_SIZE + 1) 97], c ≠ ([] : List Nat)) ∧
    ([List.replicate (MAX_SCRIPT_SIZE + 1) 97] : List (List Nat)).flatten.length =
      MAX_SCRIPT_SIZE + 1 ∧
    Event.startedProcess ∉
      (handle ⟨[List.replicate (MAX_SCRIPT_SIZE + 1) 97],
               ExecOutcome.completed 0 [] [], fun _ => true⟩).events := by
  have h1 : ∀ c ∈ [List.replicate (MAX_SCRIPT_SIZE + 1) 97], c ≠ ([] : List Nat) := by
    intro c hc
    simp only [List.mem_singleton] at hc
    subst hc
    intro hnil
    have hlen := congrArg List.length hnil
    simp at hlen
  have h2 : ([List.replicate (MAX_SCRIPT_SIZE + 1) 97] : List (List Nat)).flatten.length =
      MAX_SCRIPT_SIZE + 1 := by simp
  exact ⟨h1, h2, (spec_c2_size_limit _ _ _ h1 h2 rfl).2.2.2⟩

/-- C9: a connection that closes with zero bytes read ends silently: the
trace holds only the EOF read, no response write of any kind, and no error. -/
theorem spec_c9_empty_request (exec : ExecOutcome) (sendOk : Nat → Bool) :
    handle ⟨[], exec, sendOk⟩ = ⟨[Event.recvEof], false⟩ ∧
    ∀ e ∈ (handle ⟨[], exec, sendOk⟩).events, isSend e = false := by
  have hread : readPhase ([] : List (List Nat)) [] = ([Event.recvEof], some []) := by
    rw [readPhase]
    rw [if_neg (by decide)]
  have h : handle ⟨[], exec, sendOk⟩ = ⟨[Event.recvEof], false⟩ := by
    rw [handle]
    simp only [hread]
    simp
  refine ⟨h, ?_⟩
  rw [h]
  intro e he
  simp only [List.mem_singleton] at he
  subst he
  rfl

/-- C3: when the script exceeds the timeout, the handler responds with the
fixed `"ERROR: Execution timed out"` message; the trace is independent of
whatever partial stdout/stderr the timed-out process produced, so no
partial output is reported. -/
theorem spec_c3_timeout (w : World) (revs : List Event) (bytes : List Nat)
    (code capturedOut capturedErr : List Char)
    (hexec : w.exec = ExecOutcome.timedOut capturedOut capturedErr)
    (hread : readPhase w.chunks [] = (revs, some bytes))
    (hb : bytes ≠ [])
    (hdec : utf8Decode bytes = some code)
    (hs0 : w.sendOk 0 = true) :
    (handle w).events =
      revs ++ [Event.createdDir, Event.wroteScript code, Event.startedProcess,
               Event.sendOkEv timeoutErrorMsg, Event.removedDir] ∧
    handle w = handle ⟨w.chunks, ExecOutcome.timedOut [] [], w.sendOk⟩ := by
  have hthis : handle w =
      ⟨revs ++ [Event.createdDir, Event.wroteScript code, Event.startedProcess,
                Event.sendOkEv timeoutErrorMsg, Event.removedDir], false⟩ := by
    rw [handle]
    simp only [hread, hexec, hdec, hs0]
    rw [if_neg hb]
    simp
  have hother : handle ⟨w.chunks, ExecOutcome.timedOut [] [], w.sendOk⟩ =
      ⟨revs ++ [Event.createdDir, Event.wroteScript code, Event.startedProcess,
                Event.sendOkEv timeoutErrorMsg, Event.removedDir], false⟩ := by
    rw [handle]
    simp only [hread, hdec, hs0]
    rw [if_neg hb]
    simp
  rw [hthis, hother]
  exact ⟨rfl, rfl⟩

theorem spec_c3_timeout_witness :
    (⟨[[120]], ExecOutcome.timedOut (chars "boom") (chars "partly"),
      fun _ => true⟩ : World).exec =
        ExecOutcome.timedOut (chars "boom") (chars "partly") ∧
    readPhase [[120]] [] = ([Event.recvChunk [120], Event.recvEof], some [120]) ∧
    ([120] : List Nat) ≠ [] ∧
    utf8Decode [120] = some [Char.ofNat 120] ∧
    (handle ⟨[[120]], ExecOutcome.timedOut (chars "boom") (chars "partly"),
      fun _ => true⟩).events =
      [Event.recvChunk [120], Event.recvEof] ++
      [Event.createdDir, Event.wroteScript [Char.ofNat 120], Event.startedProcess,
       Event.sendOkEv timeoutErrorMsg, Event.removedDir] := by
  have h1 : readPhase [[120]] [] =
      ([Event.recvChunk [120], Event.recvEof], some [120]) := by decide
  have h2 : utf8Decode [120] = some [Char.ofNat 120] := by decide
  exact ⟨rfl, h1, by decide, h2,
    (spec_c3_timeout _ _ _ _ _ _ rfl h1 (by decide) h2 rfl).1⟩

/-- Every branch of `handle` appends its extra events after the read-loop
events, and any branch that creates the scratch directory also removes it. -/
theorem handle_events_shape (w : World) :
    ∃ tail, (handle w).events = (readPhase w.chunks []).1 ++ tail ∧
      (Event.createdDir ∈ tail → Event.removedDir ∈ tail) := by
  rw [handle]
  split
  · split
    · exact ⟨[Event.sendOkEv sizeErrorMsg], rfl, by simp⟩
    · split
      · exact ⟨[Event.sendFailEv sizeErrorMsg, Event.sendOkEv internalErrorMsg],
          rfl, by simp⟩
      · exact ⟨[Event.sendFailEv sizeErrorMsg, Event.sendFailEv internalErrorMsg],
          rfl, by simp⟩
  · split
    · exact ⟨[], by simp, by simp⟩
    · split
      · split
        · exact ⟨[Event.sendOkEv decodeErrorMsg], rfl, by simp⟩
        · exact ⟨[Event.sendFailEv decodeErrorMsg], rfl, by simp⟩
      · split
        · split
          · exact ⟨_, rfl, by intro _; simp⟩
          · split
            · exact ⟨_, rfl, by intro _; simp⟩
            · exact ⟨_, rfl, by intro _; simp⟩
        · split
          · exact ⟨_, rfl, by intro _; simp⟩
          · split
            · exact ⟨_, rfl, by intro _; simp⟩
            · exact ⟨_, rfl, by intro _; simp⟩
        · split
          · exact ⟨_, rfl, by intro _; simp⟩
          · exact ⟨_, rfl, by intro _; simp⟩

/-- C8: on every exit path of the handler — normal completion, timeout,
other exception, and every send-failure combination — a created scratch
directory is removed before handling ends. -/
theorem spec_c8_cleanup (w : World)
    (h : Event.createdDir ∈ (handle w).events) :
    Event.removedDir ∈ (handle w).events := by
  obtain ⟨tail, hev, himp⟩ := handle_events_shape w
  rw [hev] at h ⊢
  rcases List.mem_append.1 h with hmem | hmem
  · rcases readPhase_events_kind w.chunks [] _ hmem with ⟨c, hc⟩ | hc <;> simp at hc
  · exact List.mem_append.2 (Or.inr (himp hmem))

theorem spec_c8_cleanup_witness :
    Event.createdDir ∈
      (handle ⟨[[97]], ExecOutcome.completed 0 [] [], fun _ => true⟩).events ∧
    Event.removedDir ∈
      (handle ⟨[[97]], ExecOutcome.completed 0 [] [], fun _ => true⟩).events :=
  ⟨by decide, spec_c8_cleanup _ (by decide)⟩

theorem readPhase_single_overflow (c : List Nat) (hc : c ≠ [])
    (hlen : MAX_SCRIPT_SIZE < c.length) :
    readPhase [c] [] = ([Event.recvChunk c], none) := by
  rw [readPhase]
  rw [if_neg (by decide)]
  simp only []
  rw [if_neg hc]
  rw [readPhase]
  rw [if_pos (by simpa using hlen)]

theorem handle_single_overflow (c : List Nat) (exec : ExecOutcome)
    (hc : c ≠ []) (hlen : MAX_SCRIPT_SIZE < c.length) :
    handle ⟨[c], exec, fun _ => true⟩ =
      ⟨[Event.recvChunk c, Event.sendOkEv sizeErrorMsg], false⟩ := by
  rw [handle]
  simp only [readPhase_single_overflow c hc hlen]
  simp

/-- C4 counterexample: a request of `MAX_SCRIPT_SIZE + 1` bytes of `0xFF`
is non-empty and not valid UTF-8, yet the handler answers with the
size-limit error, never the decode-failure error — the claim fails for
oversized invalid requests. -/
theorem spec_c4_decode_counterexample :
    List.replicate (MAX_SCRIPT_SIZE + 1) 255 ≠ ([] : List Nat) ∧
    utf8Decode (List.replicate (MAX_SCRIPT_SIZE + 1) 255) = none ∧
    (handle ⟨[List.replicate (MAX_SCRIPT_SIZE + 1) 255],
             ExecOutcome.completed 0 [] [], fun _ => true⟩).events =
      [Event.recvChunk (List.replicate (MAX_SCRIPT_SIZE + 1) 255),
       Event.sendOkEv sizeErrorMsg] ∧
    Event.sendOkEv decodeErrorMsg ∉
      (handle ⟨[List.replicate (MAX_SCRIPT_SIZE + 1) 255],
               ExecOutcome.completed 0 [] [], fun _ => true⟩).events := by
  have hne : List.replicate (MAX_SCRIPT_SIZE + 1) 255 ≠ ([] : List Nat) := by
    intro h
    have hlen := congrArg List.length h
    simp at hlen
  have hlen : MAX_SCRIPT_SIZE < (List.replicate (MAX_SCRIPT_SIZE + 1) 255).length := by
    simp
  have hdec : utf8Decode (List.replicate (MAX_SCRIPT_SIZE + 1) 255) = none := by
    rw [List.replicate_succ]
    rfl
  have hev := handle_single_overflow (List.replicate (MAX_SCRIPT_SIZE + 1) 255)
    (ExecOutcome.completed 0 [] []) hne hlen
  refine ⟨hne, hdec, by rw [hev], ?_⟩
  rw [hev]
  intro hmem
  simp only [List.mem_cons, List.mem_singleton, List.not_mem_nil, or_false] at hmem
  rcases hmem with h | h
  · exact absurd h (by simp)
  · rw [show (Event.sendOkEv decodeErrorMsg = Event.sendOkEv sizeErrorMsg) =
        (decodeErrorMsg = sizeErrorMsg) from by simp] at h
    exact absurd h (by decide)

/-- C4 amended: for every non-empty request within the size limit whose
bytes are not valid UTF-8, the handler sends
`"ERROR: Invalid UTF-8 data received."` and execution is never attempted
(no scratch directory, no script file, no process). -/
theorem spec_c4_decode_amended (chunks : List (List Nat)) (exec : ExecOutcome)
    (sendOk : Nat → Bool)
    (hne : ∀ c ∈ chunks, c ≠ [])
    (hsize : chunks.flatten.length ≤ MAX_SCRIPT_SIZE)
    (hnonempty : chunks.flatten ≠ [])
    (hdec : utf8Decode chunks.flatten = none)
    (hs0 : sendOk 0 = true) :
    (handle ⟨chunks, exec, sendOk⟩).events =
      chunks.map Event.recvChunk ++ [Event.recvEof, Event.sendOkEv decodeErrorMsg] ∧
    Event.createdDir ∉ (handle ⟨chunks, exec, sendOk⟩).events ∧
    (∀ code, Event.wroteScript code ∉ (handle ⟨chunks, exec, sendOk⟩).events) ∧
    Event.startedProcess ∉ (handle ⟨chunks, exec, sendOk⟩).events := by
  have hread : readPhase chunks [] =
      (chunks.map Event.recvChunk ++ [Event.recvEof], some chunks.flatten) := by
    have h := readPhase_complete chunks [] hne (by simpa using hsize)
    simpa using h
  have hev : (handle ⟨chunks, exec, sendOk⟩).events =
      chunks.map Event.recvChunk ++ [Event.recvEof, Event.sendOkEv decodeErrorMsg] := by
    rw [handle]
    simp only [hread, hdec, hs0]
    rw [if_neg hnonempty]
    simp
  refine ⟨hev, ?_, ?_, ?_⟩
  · intro hmem
    rw [hev] at hmem
    simp at hmem
  · intro code hmem
    rw [hev] at hmem
    simp at hmem
  · intro hmem
    rw [hev] at hmem
    simp at hmem

theorem spec_c4_decode_amended_witness :
    (∀ c ∈ [[255]], c ≠ ([] : List Nat)) ∧
    ([[255]] : List (List Nat)).flatten.length ≤ MAX_SCRIPT_SIZE ∧
    ([[255]] : List (List Nat)).flatten ≠ [] ∧
    utf8Decode ([[255]] : List (List Nat)).flatten = none ∧
    (handle ⟨[[255]], ExecOutcome.completed 0 [] [], fun _ => true⟩).events =
      [[255]].map Event.recvChunk ++ [Event.recvEof, Event.sendOkEv decodeErrorMsg] := by
  refine ⟨by decide, by decide, by decide, by decide, ?_⟩
  exact (spec_c4_decode_amended [[255]] (ExecOutcome.completed 0 [] [])
    (fun _ => true) (by decide) (by decide) (by decide) (by decide) rfl).1

/-- C6 counterexample: when the write of the encoded success result fails,
the handler does not merely log and swallow it — the blanket
`except Exception` clause sends `"SERVER ERROR: An internal error
occurred."` on the same connection afterwards. -/
theorem spec_c6_write_failure_counterexample :
    (handle ⟨[[104, 105]], ExecOutcome.completed 0 (chars "ok\n") [],
             fun i => i == 1⟩).events =
      [Event.recvChunk [104, 105], Event.recvEof,
       Event.createdDir, Event.wroteScript (chars "hi"), Event.startedProcess,
       Event.sendFailEv (encodeResponse 0 (chars "ok\n") []),
       Event.removedDir, Event.sendOkEv internalErrorMsg] ∧
    Event.sendOkEv internalErrorMsg ∈
      (handle ⟨[[104, 105]], ExecOutcome.completed 0 (chars "ok\n") [],
               fun i => i == 1⟩).events := by
  have hev : (handle ⟨[[104, 105]], ExecOutcome.completed 0 (chars "ok\n") [],
      fun i => i == 1⟩).events =
      [Event.recvChunk [104, 105], Event.recvEof,
       Event.createdDir, Event.wroteScript (chars "hi"), Event.startedProcess,
       Event.sendFailEv (encodeResponse 0 (chars "ok\n") []),
       Event.removedDir, Event.sendOkEv internalErrorMsg] := rfl
  exact ⟨hev, by rw [hev]; simp⟩

/-- C6 amended: after a failed write of the encoded success result, the
handler logs the failure in its blanket exception handler and then attempts
one further write, of the internal-error line, before tearing the
connection down; when that second write succeeds no exception escapes. -/
theorem spec_c6_write_failure_amended (w : World) (revs : List Event)
    (bytes : List Nat) (code : List Char) (rc : Int) (out err : List Char)
    (hexec : w.exec = ExecOutcome.completed rc out err)
    (hread : readPhase w.chunks [] = (revs, some bytes))
    (hb : bytes ≠ [])
    (hdec : utf8Decode bytes = some code)
    (hs0 : w.sendOk 0 = false)
    (hs1 : w.sendOk 1 = true) :
    (handle w).events =
      revs ++ [Event.createdDir, Event.wroteScript code, Event.startedProcess,
               Event.sendFailEv (encodeResponse rc out err), Event.removedDir,
               Event.sendOkEv internalErrorMsg] ∧
    (handle w).escaped = false := by
  have h : handle w =
      ⟨revs ++ [Event.createdDir, Event.wroteScript code, Event.startedProcess,
                Event.sendFailEv (encodeResponse rc out err), Event.removedDir,
                Event.sendOkEv internalErrorMsg], false⟩ := by
    rw [handle]
    simp only [hread, hexec, hdec, hs0, hs1]
    rw [if_neg hb]
    simp
  rw [h]
  exact ⟨rfl, rfl⟩

theorem spec_c6_write_failure_amended_witness :
    (⟨[[120]], ExecOutcome.completed 7 [] (chars "e"),
      fun i => i == 1⟩ : World).exec = ExecOutcome.completed 7 [] (chars "e") ∧
    readPhase [[120]] [] = ([Event.recvChunk [120], Event.recvEof], some [120]) ∧
    ([120] : List Nat) ≠ [] ∧
    utf8Decode [120] = some (chars "x") ∧
    ((fun i => i == 1) 0) = false ∧
    ((fun i => i == 1) 1) = true ∧
    (handle ⟨[[120]], ExecOutcome.completed 7 [] (chars "e"),
      fun i => i == 1⟩).events =
      [Event.recvChunk [120], Event.recvEof] ++
      [Event.createdDir, Event.wroteScript (chars "x"), Event.startedProcess,
       Event.sendFailEv (encodeResponse 7 [] (chars "e")), Event.removedDir,
       Event.sendOkEv internalErrorMsg] := by
  have h1 : readPhase [[120]] [] =
      ([Event.recvChunk [120], Event.recvEof], some [120]) := by decide
  have h2 : utf8Decode [120] = some (chars "x") := by decide
  exact ⟨rfl, h1, by decide, h2, rfl, rfl,
    (spec_c6_write_failure_amended _ _ _ _ _ _ _ rfl h1 (by decide) h2 rfl rfl).1⟩

/-- C7 counterexample: with one oversized chunk the handler writes the
size-limit response although it never read the request to EOF and never
executed anything — a response is sent before the request is fully
consumed. -/
theorem spec_c7_ordering_counterexample :
    (handle ⟨[List.replicate (MAX_SCRIPT_SIZE + 1) 10],
             ExecOutcome.completed 0 [] [], fun _ => true⟩).events =
      [Event.recvChunk (List.replicate (MAX_SCRIPT_SIZE + 1) 10),
       Event.sendOkEv sizeErrorMsg] ∧
    (∃ s, Event.sendOkEv s ∈
      (handle ⟨[List.replicate (MAX_SCRIPT_SIZE + 1) 10],
               ExecOutcome.completed 0 [] [], fun _ => true⟩).events) ∧
    Event.recvEof ∉
      (handle ⟨[List.replicate (MAX_SCRIPT_SIZE + 1) 10],
               ExecOutcome.completed 0 [] [], fun _ => true⟩).events ∧
    Event.startedProcess ∉
      (handle ⟨[List.replicate (MAX_SCRIPT_SIZE + 1) 10],
               ExecOutcome.completed 0 [] [], fun _ => true⟩).events := by
  have hne : List.replicate (MAX_SCRIPT_SIZE + 1) 10 ≠ ([] : List Nat) := by
    intro h
    have hlen := congrArg List.length h
    simp at hlen
  have hlen : MAX_SCRIPT_SIZE < (List.replicate (MAX_SCRIPT_SIZE + 1) 10).length := by
    simp
  have hev := handle_single_overflow (List.replicate (MAX_SCRIPT_SIZE + 1) 10)
    (ExecOutcome.completed 0 [] []) hne hlen
  refine ⟨by rw [hev], ⟨sizeErrorMsg, by rw [hev]; simp⟩, ?_, ?_⟩
  · rw [hev]
    intro hmem
    simp at hmem
  · rw [hev]
    intro hmem
    simp at hmem

/-- C7 amended: for every request that is fully read to EOF, decoded and
executed, no response bytes are written before the request has been fully
consumed and the process started: every prefix of the handler's trace that
contains a write event already contains the EOF read and the process
start. -/
theorem spec_c7_ordering_amended (w : World) (revs : List Event)
    (bytes : List Nat) (code : List Char)
    (hread : readPhase w.chunks [] = (revs, some bytes))
    (hb : bytes ≠ [])
    (hdec : utf8Decode bytes = some code) :
    ∀ pre suf, (handle w).events = pre ++ suf →
      (∃ s, Event.sendOkEv s ∈ pre ∨ Event.sendFailEv s ∈ pre) →
      Event.recvEof ∈ pre ∧ Event.startedProcess ∈ pre := by
  have hrevs : (readPhase w.chunks []).1 = revs := by rw [hread]
  obtain ⟨B, hB⟩ : ∃ B, (handle w).events =
      (revs ++ [Event.createdDir, Event.wroteScript code, Event.startedProcess]) ++ B := by
    rw [handle]
    simp only [hread, hdec]
    rw [if_neg hb]
    rcases hx : w.exec with ⟨rc2, out2, err2⟩ | ⟨po, pe⟩ | _ <;>
      simp only [hx] <;> split
    · exact ⟨[Event.sendOkEv (encodeResponse rc2 out2 err2), Event.removedDir],
        by simp⟩
    · split
      · exact ⟨[Event.sendFailEv (encodeResponse rc2 out2 err2), Event.removedDir,
          Event.sendOkEv internalErrorMsg], by simp⟩
      · exact ⟨[Event.sendFailEv (encodeResponse rc2 out2 err2), Event.removedDir,
          Event.sendFailEv internalErrorMsg], by simp⟩
    · exact ⟨[Event.sendOkEv timeoutErrorMsg, Event.removedDir], by simp⟩
    · split
      · exact ⟨[Event.sendFailEv timeoutErrorMsg, Event.removedDir,
          Event.sendOkEv internalErrorMsg], by simp⟩
      · exact ⟨[Event.sendFailEv timeoutErrorMsg, Event.removedDir,
          Event.sendFailEv internalErrorMsg], by simp⟩
    · exact ⟨[Event.removedDir, Event.sendOkEv internalErrorMsg], by simp⟩
    · exact ⟨[Event.removedDir, Event.sendFailEv internalErrorMsg], by simp⟩
  have hnosendA : ∀ e ∈ revs ++ [Event.createdDir, Event.wroteScript code,
      Event.startedProcess], isSend e = false := by
    intro e he
    rcases List.mem_append.1 he with h | h
    · rw [← hrevs] at h
      rcases readPhase_events_kind w.chunks [] _ h with ⟨c, hc⟩ | hc
      · rw [hc]; rfl
      · rw [hc]; rfl
    · simp only [List.mem_cons, List.not_mem_nil, or_false] at h
      rcases h with rfl | rfl | rfl <;> rfl
  intro pre suf hsplit hsend
  rw [hB] at hsplit
  by_cases hlen : pre.length ≤
      (revs ++ [Event.createdDir, Event.wroteScript code, Event.startedProcess]).length
  · exfalso
    have hpre : pre = (revs ++ [Event.createdDir, Event.wroteScript code,
        Event.startedProcess]).take pre.length := by
      have h1 : (pre ++ suf).take pre.length = pre := List.take_left pre suf
      rw [← hsplit, List.take_append_eq_append_take,
          show pre.length - (revs ++ [Event.createdDir, Event.wroteScript code,
            Event.startedProcess]).length = 0 by omega] at h1
      simp only [List.take_zero, List.append_nil] at h1
      exact h1.symm
    obtain ⟨s, hs⟩ := hsend
    rcases hs with hs | hs
    · have hmem : Event.sendOkEv s ∈ revs ++ [Event.createdDir,
          Event.wroteScript code, Event.startedProcess] := by
        rw [hpre] at hs
        exact List.take_subset _ _ hs
      have := hnosendA _ hmem
      simp [isSend] at this
    · have hmem : Event.sendFailEv s ∈ revs ++ [Event.createdDir,
          Event.wroteScript code, Event.startedProcess] := by
        rw [hpre] at hs
        exact List.take_subset _ _ hs
      have := hnosendA _ hmem
      simp [isSend] at this
  · push_neg at hlen
    have hApre : revs ++ [Event.createdDir, Event.wroteScript code,
        Event.startedProcess] = pre.take (revs ++ [Event.createdDir,
        Event.wroteScript code, Event.startedProcess]).length := by
      have h1 : ((revs ++ [Event.createdDir, Event.wroteScript code,
          Event.startedProcess]) ++ B).take (revs ++ [Event.createdDir,
          Event.wroteScript code, Event.startedProcess]).length =
          revs ++ [Event.createdDir, Event.wroteScript code, Event.startedProcess] :=
        List.take_left _ B
      rw [hsplit, List.take_append_eq_append_take,
          show (revs ++ [Event.createdDir, Event.wroteScript code,
            Event.startedProcess]).length - pre.length = 0 by omega] at h1
      simp only [List.take_zero, List.append_nil] at h1
      exact h1.symm
    have hsubset : ∀ e ∈ revs ++ [Event.createdDir, Event.wroteScript code,
        Event.startedProcess], e ∈ pre := by
      intro e he
      rw [hApre] at he
      exact List.take_subset _ _ he
    constructor
    · apply hsubset
      apply List.mem_append.2
      left
      rcases readPhase_eof_or_none w.chunks [] with h | h
      · rw [← hrevs]; exact h
      · rw [hread] at h; cases h
    · apply hsubset
      simp

theorem spec_c7_ordering_amended_witness :
    readPhase [[121]] [] = ([Event.recvChunk [121], Event.recvEof], some [121]) ∧
    ([121] : List Nat) ≠ [] ∧
    utf8Decode [121] = some (chars "y") ∧
    (handle ⟨[[121]], ExecOutcome.completed 0 [] [], fun _ => true⟩).events =
      [Event.recvChunk [121], Event.recvEof, Event.createdDir,
       Event.wroteScript (chars "y"), Event.startedProcess,
       Event.sendOkEv (encodeResponse 0 [] [])] ++ [Event.removedDir] ∧
    (Event.recvEof ∈
      [Event.recvChunk [121], Event.recvEof, Event.createdDir,
       Event.wroteScript (chars "y"), Event.startedProcess,
       Event.sendOkEv (encodeResponse 0 [] [])] ∧
     Event.startedProcess ∈
      [Event.recvChunk [121], Event.recvEof, Event.createdDir,
       Event.wroteScript (chars "y"), Event.startedProcess,
       Event.sendOkEv (encodeResponse 0 [] [])]) := by
  have h1 : readPhase [[121]] [] =
      ([Event.recvChunk [121], Event.recvEof], some [121]) := by decide
  have h2 : utf8Decode [121] = some (chars "y") := by decide
  have h3 : (handle ⟨[[121]], ExecOutcome.completed 0 [] [], fun _ => true⟩).events =
      [Event.recvChunk [121], Event.recvEof, Event.createdDir,
       Event.wroteScript (chars "y"), Event.startedProcess,
       Event.sendOkEv (encodeResponse 0 [] [])] ++ [Event.removedDir] := rfl
  exact ⟨h1, by decide, h2, h3,
    spec_c7_ordering_amended _ _ _ _ h1 (by decide) h2 _ _ h3
      ⟨encodeResponse 0 [] [], Or.inl (by simp)⟩⟩

/-- C5 counterexample: a response missing the `--- Execution Result ---`
header, the `Return Code: ` literal and the `--- STDOUT ---` marker still
parses to `ExecutionResult(42, "A", "B")`: `_parse_response` checks only
that its structural splitting steps succeed, never the marker text, so a
response that does not match the wire format can be returned as a
successful ExecutionResult. -/
theorem spec_c5_parse_errors_counterexample :
    pyContains (chars "--- Execution Result ---")
      (chars "x\n42\n\nA\n--- STDERR ---\nB") = false ∧
    pyContains (chars "Return Code: ")
      (chars "x\n42\n\nA\n--- STDERR ---\nB") = false ∧
    pyContains (chars "--- STDOUT ---")
      (chars "x\n42\n\nA\n--- STDERR ---\nB") = false ∧
    parseResponse (chars "x\n42\n\nA\n--- STDERR ---\nB") =
      .ok ⟨42, chars "A", chars "B"⟩ := by
  refine ⟨by decide, by decide, by decide, ?_⟩
  have hsw1 : isPrefixB (chars "ERROR:")
      (chars "x\n42\n\nA\n--- STDERR ---\nB") = false := by decide
  have hsw2 : isPrefixB (chars "SERVER ERROR:")
      (chars "x\n42\n\nA\n--- STDERR ---\nB") = false := by decide
  have hs1 : splitOnce (chars "\n\n") (chars "x\n42\n\nA\n--- STDERR ---\nB") =
      some (chars "x\n42", chars "A\n--- STDERR ---\nB") := by decide
  have hlines : pySplitlines (chars "x\n42") = [chars "x", chars "42"] := by
    rw [show chars "x\n42" = chars "x" ++ '\n' :: chars "42" from by decide]
    rw [pySplitlines, splitlinesAux_break (by decide) _ []]
    rw [splitlinesAux_flat (by decide) []]
    rw [if_neg (by decide)]
    simp
  have hs2 : splitTwo (chars "\n--- STDERR ---\n") (chars "A\n--- STDERR ---\nB") =
      some (chars "A", chars "B") := by
    rw [splitTwo]
    rw [show splitOnce (chars "\n--- STDERR ---\n") (chars "A\n--- STDERR ---\nB") =
        some (chars "A", chars "B") from by decide]
    simp only []
    rw [show splitOnce (chars "\n--- STDERR ---\n") (chars "B") = none from by decide]
    rfl
  have hrep : pyReplace (chars "Return Code: ") [] (chars "42") = chars "42" := by
    rw [show chars "Return Code: " = 'R' :: chars "eturn Code: " from by decide]
    apply pyReplace_no_occ
    decide
  have hint : pyParseInt (pyStrip (chars "42")) = some 42 := by decide
  rw [parseResponse, hsw1, hsw2]
  rw [if_neg (by simp)]
  rw [hs1]
  simp only []
  rw [hlines]
  simp only [List.get?]
  rw [hs2]
  simp only []
  rw [hrep, hint]
  simp only []
  rw [show pyReplaceOnce (chars "--- STDOUT ---\n") [] (chars "A") = chars "A"
    from by decide]
